import Mathlib

/-!
# Verification of the `logu` Drain clustering engine

A shallow embedding of `src/drain.rs` (the Drain log-template mining engine)
and proofs of the spec's claims about it.

Modelling conventions:
* Rust `HashMap<String, Node>` is modelled as an association list with
  first-occurrence lookup and replace-or-append insertion; the code never
  iterates over the map, so only lookup / membership / size are observable.
* The root node's children are keyed by `token_count.to_string()` and only
  ever accessed with such keys, so the first tree level is modelled as an
  association list keyed by `Nat` directly (decimal rendering is injective).
* `LruCache` is modelled as a recency-ordered list of key/value pairs
  (most recently used first) plus an optional capacity; `get` promotes,
  `contains` does not, `put` promotes/replaces or inserts evicting the last
  (least recently used) entry when at capacity, exactly as the `lru` crate.
* `f32` similarity scores are modelled as exact rationals (`ℚ`); the scores
  are quotients of small naturals, where `f32` arithmetic is exact enough
  that all comparisons performed by the code agree with the rational ones.
* A Rust panic (`unwrap` on a missing key, indexing `cluster_ids[0]` out of
  bounds) is modelled by `Option`: `train` returns `none` exactly when the
  original code would panic.
-/

namespace Logu

/-! ## Association lists (model of `HashMap`) -/

/-- First-occurrence lookup in an association list (model of `HashMap::get`). -/
def lookupA {α β : Type} [DecidableEq α] : List (α × β) → α → Option β
  | [], _ => none
  | (k, v) :: rest, a => if k = a then some v else lookupA rest a

/-- Key membership (model of `HashMap::contains_key`). -/
def containsA {α β : Type} [DecidableEq α] (l : List (α × β)) (a : α) : Bool :=
  (lookupA l a).isSome

/-- Replace the first binding of a key, or append a new binding
(model of `HashMap::insert` / `entry().or_insert`). -/
def insertA {α β : Type} [DecidableEq α] : List (α × β) → α → β → List (α × β)
  | [], a, b => [(a, b)]
  | (k, v) :: rest, a, b => if k = a then (a, b) :: rest else (k, v) :: insertA rest a b

/-- Remove the first binding of a key. -/
def removeA {α β : Type} [DecidableEq α] : List (α × β) → α → List (α × β)
  | [], _ => []
  | (k, v) :: rest, a => if k = a then rest else (k, v) :: removeA rest a

theorem lookupA_mem {α β : Type} [DecidableEq α] {l : List (α × β)} {a : α} {b : β}
    (h : lookupA l a = some b) : (a, b) ∈ l := by
  induction l with
  | nil => simp [lookupA] at h
  | cons p rest ih =>
    obtain ⟨k, v⟩ := p
    by_cases hk : k = a
    · subst hk
      simp [lookupA] at h
      subst h
      exact List.mem_cons_self _ _
    · simp [lookupA, hk] at h
      exact List.mem_cons_of_mem _ (ih h)

theorem lookupA_insertA_self {α β : Type} [DecidableEq α] (l : List (α × β)) (a : α) (b : β) :
    lookupA (insertA l a b) a = some b := by
  induction l with
  | nil => simp [insertA, lookupA]
  | cons p rest ih =>
    obtain ⟨k, v⟩ := p
    by_cases hk : k = a
    · subst hk; simp [insertA, lookupA]
    · simp [insertA, lookupA, hk, ih]

theorem lookupA_insertA_ne {α β : Type} [DecidableEq α] (l : List (α × β)) (a a' : α) (b : β)
    (h : a' ≠ a) : lookupA (insertA l a b) a' = lookupA l a' := by
  induction l with
  | nil => simp [insertA, lookupA, Ne.symm h]
  | cons p rest ih =>
    obtain ⟨k, v⟩ := p
    by_cases hk : k = a
    · subst hk
      simp [insertA, lookupA, Ne.symm h]
    · by_cases hk' : k = a'
      · subst hk'
        simp [insertA, lookupA, hk]
      · simp [insertA, lookupA, hk, hk', ih]

theorem lookupA_removeA_ne {α β : Type} [DecidableEq α] (l : List (α × β)) (a a' : α)
    (h : a' ≠ a) : lookupA (removeA l a) a' = lookupA l a' := by
  induction l with
  | nil => simp [removeA]
  | cons p rest ih =>
    obtain ⟨k, v⟩ := p
    by_cases hk : k = a
    · subst hk
      simp [removeA, lookupA, Ne.symm h]
    · by_cases hk' : k = a'
      · subst hk'
        simp [removeA, lookupA, hk]
      · simp [removeA, lookupA, hk, hk', ih]

theorem removeA_subset {α β : Type} [DecidableEq α] (l : List (α × β)) (a : α) :
    ∀ p ∈ removeA l a, p ∈ l := by
  induction l with
  | nil => simp [removeA]
  | cons q rest ih =>
    obtain ⟨k, v⟩ := q
    intro p hp
    by_cases hk : k = a
    · subst hk
      simp only [removeA, if_pos rfl] at hp
      exact List.mem_cons_of_mem _ hp
    · simp only [removeA, if_neg hk, List.mem_cons] at hp
      rcases hp with h | h
      · exact h ▸ List.mem_cons_self _ _
      · exact List.mem_cons_of_mem _ (ih p h)

/-! ## Data model -/

/-- A log cluster (struct `LogCluster` in `drain.rs`). -/
structure LogCluster where
  logTemplateTokens : List String
  clusterId : Nat
  size : Nat
deriving DecidableEq, Repr

/-- `LogCluster::get_template`: the tokens rejoined with single spaces. -/
def LogCluster.getTemplate (c : LogCluster) : String :=
  String.intercalate " " c.logTemplateTokens

/-- Model of `lru::LruCache<usize, LogCluster>`: entries in recency order,
most recently used first, with an optional capacity. -/
structure Lru where
  entries : List (Nat × LogCluster)
  cap : Option Nat
deriving DecidableEq, Repr

/-- Pure lookup (recency unchanged); also the model of `LruCache::peek`. -/
def Lru.lookup (s : Lru) (k : Nat) : Option LogCluster :=
  lookupA s.entries k

/-- `LruCache::contains`: key membership, recency unchanged. -/
def Lru.containsKey (s : Lru) (k : Nat) : Bool :=
  (s.lookup k).isSome

/-- `LruCache::get`: returns the value and promotes the entry to
most-recently-used; a miss leaves the cache unchanged. -/
def Lru.get (s : Lru) (k : Nat) : Option LogCluster × Lru :=
  match lookupA s.entries k with
  | none => (none, s)
  | some v => (some v, ⟨(k, v) :: removeA s.entries k, s.cap⟩)

/-- `LruCache::put`: if the key is present, replace its value and promote it;
otherwise insert at the front, first evicting the least-recently-used entry
(the last one) when the cache is bounded and full. -/
def Lru.put (s : Lru) (k : Nat) (v : LogCluster) : Lru :=
  if (lookupA s.entries k).isSome then
    ⟨(k, v) :: removeA s.entries k, s.cap⟩
  else
    match s.cap with
    | some c =>
      if c ≤ s.entries.length then ⟨(k, v) :: s.entries.dropLast, s.cap⟩
      else ⟨(k, v) :: s.entries, s.cap⟩
    | none => ⟨(k, v) :: s.entries, s.cap⟩

/-- A prefix-tree node (struct `Node` in `drain.rs`): a map from child key to
child node, plus a list of cluster ids (used at leaves). -/
inductive Node where
  | mk (keyToChildNode : List (String × Node)) (clusterIds : List Nat)
deriving Repr

/-- The children map of a node. -/
def Node.keyToChildNode : Node → List (String × Node)
  | .mk c _ => c

/-- The cluster-id list of a node. -/
def Node.clusterIds : Node → List Nat
  | .mk _ i => i

/-- `Node::default()`: no children, no cluster ids. -/
def Node.empty : Node := .mk [] []

mutual

/-- All cluster ids stored anywhere in a node's subtree. -/
def Node.allIds : Node → List Nat
  | .mk cs ids => ids ++ allIdsChildren cs

/-- All cluster ids stored in a list of child subtrees. -/
def allIdsChildren : List (String × Node) → List Nat
  | [] => []
  | (_, c) :: rest => c.allIds ++ allIdsChildren rest

end

mutual

/-- Height of a node: length of the longest child chain below it. -/
def Node.height : Node → Nat
  | .mk cs _ => heightChildren cs

/-- One plus the maximal height among a list of child subtrees (0 if none). -/
def heightChildren : List (String × Node) → Nat
  | [] => 0
  | (_, c) :: rest => max (c.height + 1) (heightChildren rest)

end

mutual

/-- Every node in the subtree has at most `mc` children, and a node with
exactly `mc` children has a wildcard child (the shape `add_seq_to_prefix_tree`
maintains below the root when `mc ≥ 1`). -/
def Node.boundedB (mc : Nat) (param : String) : Node → Bool
  | .mk cs _ =>
    decide (cs.length ≤ mc) &&
      (decide (cs.length ≠ mc) || containsA cs param) &&
      boundedChildrenB mc param cs

/-- `Node.boundedB` for every node in a children list. -/
def boundedChildrenB (mc : Nat) (param : String) : List (String × Node) → Bool
  | [] => true
  | (_, c) :: rest => c.boundedB mc param && boundedChildrenB mc param rest

end

mutual

/-- Every node in the subtree has at most `mc` children
(the bound the spec claims for the whole tree). -/
def Node.childBoundB (mc : Nat) : Node → Bool
  | .mk cs _ => decide (cs.length ≤ mc) && childBoundChildrenB mc cs

/-- `Node.childBoundB` for every node in a children list. -/
def childBoundChildrenB (mc : Nat) : List (String × Node) → Bool
  | [] => true
  | (_, c) :: rest => c.childBoundB mc && childBoundChildrenB mc rest

end

/-! ## Tokenization and similarity -/

/-- Split a character list into its maximal whitespace-free runs; `acc` holds
the reversed characters of the run in progress. -/
def splitWsAux : List Char → List Char → List String
  | [], acc => if acc = [] then [] else [String.mk acc.reverse]
  | c :: rest, acc =>
    if c.isWhitespace then
      if acc = [] then splitWsAux rest []
      else String.mk acc.reverse :: splitWsAux rest []
    else splitWsAux rest (c :: acc)

/-- `tokenize`: trim and split on whitespace runs, dropping empty pieces —
the maximal non-whitespace runs of the line, as Rust `split_whitespace`
yields them.  (Rust `char::is_whitespace` covers all Unicode whitespace;
`Char.isWhitespace` covers the ASCII subset, where all the claims live.) -/
def tokenize (s : String) : List String :=
  splitWsAux s.data []

/-- `has_number`: does the token contain a digit character?
(Rust `char::is_numeric` is Unicode-numeric; the model uses decimal digits.) -/
def hasNumber (s : String) : Bool :=
  s.toList.any fun c => c.isDigit

/-- `get_seq_distance(seq1, seq2, include_params)`: walk the zipped pair of
sequences; a position whose `seq1` token equals the wildcard marker bumps
`param_count`, otherwise an exactly-equal pair bumps `sim_tokens`; the score
is `sim_tokens / seq1.len()` (plus the wildcards when `include_params`).
Note the wildcard test is on `seq1`, which at the call site is the INCOMING
token sequence, not the stored template. -/
def getSeqDistance (param : String) (seq1 seq2 : List String) (includeParams : Bool) :
    ℚ × ℤ :=
  let zipped := seq1.zip seq2
  let simTokens := (zipped.filter fun p => p.1 ≠ param ∧ p.1 = p.2).length
  let paramCount := (zipped.filter fun p => p.1 = param).length
  let num := if includeParams then simTokens + paramCount else simTokens
  ((num : ℚ) / (seq1.length : ℚ), (paramCount : ℤ))

/-- `create_template(seq1, seq2)`: position-wise merge of two sequences —
keep the token where both agree, else the wildcard marker. -/
def createTemplate (param : String) (seq1 seq2 : List String) : List String :=
  (seq1.zip seq2).map fun p => if p.1 = p.2 then p.1 else param

/-! ## Fast match -/

/-- The loop body of `fast_match`: scan the candidate ids, `get` each from
the store (promoting it when present, skipping it silently when evicted), and
keep the candidate with the lexicographically largest
(similarity, wildcard-count) pair, earlier candidates winning full ties. -/
def fastMatchLoop (param : String) (tokens : List String) (includeParams : Bool) :
    List Nat → Lru → ℚ → ℤ → Option LogCluster → Lru × ℚ × ℤ × Option LogCluster
  | [], store, maxSim, maxPc, best => (store, maxSim, maxPc, best)
  | id :: rest, store, maxSim, maxPc, best =>
    match store.get id with
    | (some cluster, store') =>
      let sp := getSeqDistance param tokens cluster.logTemplateTokens includeParams
      if sp.1 > maxSim ∨ (sp.1 = maxSim ∧ sp.2 > maxPc) then
        fastMatchLoop param tokens includeParams rest store' sp.1 sp.2 (some cluster)
      else
        fastMatchLoop param tokens includeParams rest store' maxSim maxPc best
    | (none, store') => fastMatchLoop param tokens includeParams rest store' maxSim maxPc best

/-- `fast_match`: run the loop from `(-1, -1, None)` and return the best
candidate only when the winning similarity reaches the threshold. -/
def fastMatch (param : String) (tokens : List String) (simTh : ℚ) (includeParams : Bool)
    (clusterIds : List Nat) (store : Lru) : Lru × Option LogCluster :=
  let r := fastMatchLoop param tokens includeParams clusterIds store (-1) (-1) none
  (r.1, if r.2.1 ≥ simTh then r.2.2.2 else none)

/-! ## Tree search -/

/-- The descent loop of `tree_search`: starting at depth 1 (the count bucket),
stop at the current node when the depth equals `max_node_depth` or the token
count; otherwise follow the child keyed by the token, else by the wildcard
marker, else fail. -/
def treeSearchLoop (param : String) (maxDepth tc : Nat) :
    List String → Nat → Node → Option Node
  | [], _, node => some node
  | t :: rest, depth, node =>
    if depth = maxDepth ∨ depth = tc then some node
    else
      match (lookupA node.keyToChildNode t).orElse
          (fun _ => lookupA node.keyToChildNode param) with
      | some c => treeSearchLoop param maxDepth tc rest (depth + 1) c
      | none => none

/-- The Drain engine state (struct `Drain` in `drain.rs`).  The root node's
children are exactly the token-count buckets, so they are kept as a `Nat`-keyed
map `buckets` (see the module comment); the store's capacity lives inside
`idToCluster`. -/
structure Drain where
  idToCluster : Lru
  logClusterDepth : Nat
  maxNodeDepth : Nat
  simTh : ℚ
  maxChildren : Nat
  clusterCounter : Nat
  buckets : List (Nat × Node)
  paramStr : String
deriving Repr

/-- `Drain::default()`: unbounded store, depth 4 − 2 = 2, threshold 0.4,
at most 100 children, wildcard marker `<*>`. -/
def Drain.default : Drain where
  idToCluster := ⟨[], none⟩
  logClusterDepth := 4
  maxNodeDepth := 4 - 2
  simTh := (2 : ℚ) / 5
  maxChildren := 100
  clusterCounter := 0
  buckets := []
  paramStr := "<*>"

/-- A freshly constructed engine with the given configuration: empty store,
empty tree, counter 0 (what `Drain::new` produces for any parameter choice). -/
def Drain.init (cap : Option Nat) (maxDepth : Nat) (simTh : ℚ) (maxChildren : Nat)
    (param : String) : Drain where
  idToCluster := ⟨[], cap⟩
  logClusterDepth := maxDepth + 2
  maxNodeDepth := maxDepth
  simTh := simTh
  maxChildren := maxChildren
  clusterCounter := 0
  buckets := []
  paramStr := param

/-- `clusters()`: snapshot of all stored clusters in the store's iteration
order (most recently used first). -/
def Drain.clusters (d : Drain) : List LogCluster :=
  d.idToCluster.entries.map Prod.snd

/-- `tree_search`: look up the token-count bucket, handle the zero-token
bucket directly (indexing `cluster_ids[0]`, which panics — `none` here — when
that list is empty), otherwise descend and fast-match at the reached leaf.
Returns the store with its updated recency together with the match result;
`none` models a panic. -/
def treeSearch (d : Drain) (tokens : List String) (simTh : ℚ) (includeParams : Bool) :
    Option (Lru × Option LogCluster) :=
  let tc := tokens.length
  match lookupA d.buckets tc with
  | none => some (d.idToCluster, none)
  | some bucket =>
    if tc = 0 then
      match bucket.clusterIds with
      | [] => none
      | i :: _ => some ((d.idToCluster.get i).2, (d.idToCluster.get i).1)
    else
      match treeSearchLoop d.paramStr d.maxNodeDepth tc tokens 1 bucket with
      | none => some (d.idToCluster, none)
      | some leaf =>
        some (fastMatch d.paramStr tokens simTh includeParams leaf.clusterIds d.idToCluster)

/-! ## Tree insertion -/

/-- The child-selection step of `add_seq_to_prefix_tree` (lines 217–255 of
`drain.rs`): given the children of the current node and the next token,
return the key to descend into together with the updated children map, or
`none` where the original code would `unwrap` a missing wildcard child. -/
def selectChild (param : String) (maxChildren : Nat) (children : List (String × Node))
    (t : String) : Option (String × List (String × Node)) :=
  if containsA children t then
    some (t, children)
  else if hasNumber t then
    if containsA children param then some (param, children)
    else some (param, insertA children param Node.empty)
  else if containsA children param then
    if children.length < maxChildren then some (t, insertA children t Node.empty)
    else some (param, children)
  else if children.length + 1 < maxChildren then
    some (t, insertA children t Node.empty)
  else if children.length + 1 = maxChildren then
    some (param, insertA children param Node.empty)
  else none

/-- The walk of `add_seq_to_prefix_tree` below the count bucket: at the leaf
position (depth at `max_node_depth` or at the last token) rebuild the
cluster-id list, keeping only ids still in the store and appending the new
one; otherwise select/create the next child and recurse into it. -/
def addSeqAux (param : String) (maxChildren maxDepth : Nat) (store : Lru) (cid : Nat)
    (tc : Nat) : List String → Nat → Node → Option Node
  | [], _, node => some node
  | t :: rest, depth, node =>
    if maxDepth ≤ depth ∨ tc ≤ depth then
      some (.mk node.keyToChildNode
        ((node.clusterIds.filter fun i => store.containsKey i) ++ [cid]))
    else
      match selectChild param maxChildren node.keyToChildNode t with
      | none => none
      | some (key, children') =>
        match lookupA children' key with
        | none => none
        | some child =>
          match addSeqAux param maxChildren maxDepth store cid tc rest (depth + 1) child with
          | none => none
          | some child' => some (.mk (insertA children' key child') node.clusterIds)

/-- `add_seq_to_prefix_tree`: ensure the count bucket exists; for a zero-token
cluster append its id to the bucket's list, otherwise run the walk from
depth 1 and store the rebuilt bucket. -/
def addSeqToPrefixTree (param : String) (maxChildren maxDepth : Nat) (store : Lru)
    (cluster : LogCluster) (buckets : List (Nat × Node)) : Option (List (Nat × Node)) :=
  let tc := cluster.logTemplateTokens.length
  let bucket := (lookupA buckets tc).getD Node.empty
  if tc = 0 then
    some (insertA buckets tc
      (.mk bucket.keyToChildNode (bucket.clusterIds ++ [cluster.clusterId])))
  else
    match addSeqAux param maxChildren maxDepth store cluster.clusterId tc
        cluster.logTemplateTokens 1 bucket with
    | none => none
    | some bucket' => some (insertA buckets tc bucket')

/-! ## Training -/

/-- `train`: tokenize, search; on a match merge the template, bump the size
and write the cluster back; on a miss create a fresh cluster with the next id,
put it in the store and insert it into the tree.  `none` models a panic. -/
def train (d : Drain) (logMessage : String) : Option (LogCluster × Drain) :=
  let tokens := tokenize logMessage
  match treeSearch d tokens d.simTh false with
  | none => none
  | some (store1, some mc) =>
    let mc' : LogCluster :=
      ⟨createTemplate d.paramStr tokens mc.logTemplateTokens, mc.clusterId, mc.size + 1⟩
    some (mc', { d with idToCluster := store1.put mc'.clusterId mc' })
  | some (store1, none) =>
    let cid := d.clusterCounter + 1
    let mc : LogCluster := ⟨tokens, cid, 1⟩
    let store2 := store1.put cid mc
    match addSeqToPrefixTree d.paramStr d.maxChildren d.maxNodeDepth store2 mc d.buckets with
    | none => none
    | some buckets' =>
      some (mc, { d with idToCluster := store2, clusterCounter := cid, buckets := buckets' })

/-- Feed a list of lines through `train`, threading the state;
`none` as soon as one call panics. -/
def trainAll (d : Drain) : List String → Option Drain
  | [] => some d
  | msg :: rest =>
    match train d msg with
    | none => none
    | some (_, d') => trainAll d' rest

/-- Total size of all clusters returned by `clusters()`. -/
def sumSizes (d : Drain) : Nat :=
  (d.clusters.map LogCluster.size).sum

/-! ## Association-list lemmas -/

theorem mem_insertA {α β : Type} [DecidableEq α] {l : List (α × β)} {a : α} {b : β}
    {p : α × β} (h : p ∈ insertA l a b) : p = (a, b) ∨ p ∈ l := by
  induction l with
  | nil => simpa [insertA] using h
  | cons q rest ih =>
    obtain ⟨k, v⟩ := q
    by_cases hk : k = a
    · subst hk
      rw [insertA, if_pos rfl] at h
      rcases List.mem_cons.mp h with h1 | h1
      · exact Or.inl h1
      · exact Or.inr (List.mem_cons_of_mem _ h1)
    · rw [insertA, if_neg hk] at h
      rcases List.mem_cons.mp h with h1 | h1
      · exact Or.inr (h1 ▸ List.mem_cons_self _ _)
      · rcases ih h1 with h' | h'
        · exact Or.inl h'
        · exact Or.inr (List.mem_cons_of_mem _ h')

theorem self_mem_insertA {α β : Type} [DecidableEq α] (l : List (α × β)) (a : α) (b : β) :
    (a, b) ∈ insertA l a b := by
  induction l with
  | nil => simp [insertA]
  | cons q rest ih =>
    obtain ⟨k, v⟩ := q
    by_cases hk : k = a
    · subst hk; simp [insertA]
    · simp only [insertA, if_neg hk, List.mem_cons]
      exact Or.inr ih

theorem length_insertA_of_contains {α β : Type} [DecidableEq α] {l : List (α × β)} {a : α}
    (b : β) (h : containsA l a = true) : (insertA l a b).length = l.length := by
  induction l with
  | nil => simp [containsA, lookupA] at h
  | cons q rest ih =>
    obtain ⟨k, v⟩ := q
    by_cases hk : k = a
    · subst hk; simp [insertA]
    · simp only [containsA, lookupA, if_neg hk] at h
      simp [insertA, if_neg hk, ih h]

theorem length_insertA_of_not_contains {α β : Type} [DecidableEq α] {l : List (α × β)}
    {a : α} (b : β) (h : containsA l a = false) : (insertA l a b).length = l.length + 1 := by
  induction l with
  | nil => simp [insertA]
  | cons q rest ih =>
    obtain ⟨k, v⟩ := q
    by_cases hk : k = a
    · subst hk; simp [containsA, lookupA] at h
    · simp only [containsA, lookupA, if_neg hk] at h
      simp [insertA, if_neg hk, ih h]

theorem containsA_insertA {α β : Type} [DecidableEq α] (l : List (α × β)) (a a' : α) (b : β) :
    containsA (insertA l a b) a' = (containsA l a' || decide (a' = a)) := by
  by_cases h : a' = a
  · subst h
    simp [containsA, lookupA_insertA_self]
  · simp [containsA, lookupA_insertA_ne l a a' b h, h]

theorem lookupA_dropLast {α β : Type} [DecidableEq α] {l : List (α × β)} {a : α} {b : β}
    (h : lookupA l.dropLast a = some b) : lookupA l a = some b := by
  induction l with
  | nil => simpa using h
  | cons q rest ih =>
    obtain ⟨k, v⟩ := q
    cases rest with
    | nil => simp [lookupA] at h
    | cons r rest' =>
      rw [List.dropLast_cons₂] at h
      by_cases hk : k = a
      · subst hk
        simp only [lookupA, if_pos rfl] at h ⊢
        exact h
      · simp only [lookupA, if_neg hk] at h ⊢
        exact ih h

theorem removeA_length {α β : Type} [DecidableEq α] {l : List (α × β)} {a : α} {b : β}
    (h : lookupA l a = some b) : (removeA l a).length + 1 = l.length := by
  induction l with
  | nil => simp [lookupA] at h
  | cons q rest ih =>
    obtain ⟨k, v⟩ := q
    by_cases hk : k = a
    · subst hk; simp [removeA]
    · simp only [lookupA, if_neg hk] at h
      simp [removeA, if_neg hk, ih h]

theorem removeA_map_sum {α β : Type} [DecidableEq α] (f : α × β → Nat) {l : List (α × β)}
    {a : α} {b : β} (h : lookupA l a = some b) :
    f (a, b) + ((removeA l a).map f).sum = (l.map f).sum := by
  induction l with
  | nil => simp [lookupA] at h
  | cons q rest ih =>
    obtain ⟨k, v⟩ := q
    by_cases hk : k = a
    · subst hk
      rw [lookupA, if_pos rfl] at h
      obtain rfl : v = b := by simpa using h
      simp [removeA]
    · rw [lookupA, if_neg hk] at h
      simp only [removeA, if_neg hk, List.map_cons, List.sum_cons, ← ih h]
      omega

/-! ## LRU-cache lemmas -/

/-- The observable footprint `Lru.get` and the fast-match loop preserve:
capacity, the key-value map, the entry set, the entry count and the size sum. -/
def LruSim (s s' : Lru) : Prop :=
  s'.cap = s.cap ∧ (∀ k, s'.lookup k = s.lookup k) ∧
    (∀ p ∈ s'.entries, p ∈ s.entries) ∧
    s'.entries.length = s.entries.length ∧
    (s'.entries.map fun p => p.2.size).sum = (s.entries.map fun p => p.2.size).sum

theorem LruSim.refl (s : Lru) : LruSim s s :=
  ⟨rfl, fun _ => rfl, fun _ h => h, rfl, rfl⟩

theorem LruSim.trans {s t u : Lru} (h1 : LruSim s t) (h2 : LruSim t u) : LruSim s u :=
  ⟨h2.1.trans h1.1, fun k => (h2.2.1 k).trans (h1.2.1 k),
    fun p hp => h1.2.2.1 p (h2.2.2.1 p hp),
    h2.2.2.2.1.trans h1.2.2.2.1, h2.2.2.2.2.trans h1.2.2.2.2⟩

theorem lruSim_get (s : Lru) (k : Nat) : LruSim s (s.get k).2 := by
  unfold Lru.get
  cases h : lookupA s.entries k with
  | none => exact LruSim.refl s
  | some v =>
    refine ⟨rfl, ?_, ?_, ?_, ?_⟩
    · intro k'
      by_cases hk : k' = k
      · subst hk
        simp [Lru.lookup, lookupA, h]
      · simp [Lru.lookup, lookupA, Ne.symm hk, lookupA_removeA_ne _ _ _ hk]
    · intro p hp
      rcases List.mem_cons.mp hp with hp | hp
      · exact hp ▸ lookupA_mem h
      · exact removeA_subset _ _ _ hp
    · simpa using removeA_length h
    · have := removeA_map_sum (fun p => p.2.size) h
      simpa using this

theorem lookup_put_self (s : Lru) (k : Nat) (v : LogCluster) :
    (s.put k v).lookup k = some v := by
  unfold Lru.put Lru.lookup
  by_cases h : (lookupA s.entries k).isSome
  · simp [h, lookupA]
  · cases hc : s.cap with
    | none => simp [h, hc, lookupA]
    | some c =>
      by_cases hl : c ≤ s.entries.length <;> simp [h, hc, hl, lookupA]

theorem lookup_put_ne_of_some {s : Lru} {k k' : Nat} {v w : LogCluster} (hk : k' ≠ k)
    (h : (s.put k v).lookup k' = some w) : s.lookup k' = some w := by
  obtain ⟨entries, cap⟩ := s
  by_cases hs : (lookupA entries k).isSome
  · simp only [Lru.put, Lru.lookup, hs, if_true] at h ⊢
    rw [lookupA, if_neg (Ne.symm hk)] at h
    rwa [lookupA_removeA_ne _ _ _ hk] at h
  · cases cap with
    | none =>
      simp only [Lru.put, Lru.lookup, hs, if_false, Bool.false_eq_true] at h ⊢
      rwa [lookupA, if_neg (Ne.symm hk)] at h
    | some c =>
      by_cases hl : c ≤ entries.length
      · simp only [Lru.put, Lru.lookup, hs, if_false, Bool.false_eq_true, hl, if_true] at h ⊢
        rw [lookupA, if_neg (Ne.symm hk)] at h
        exact lookupA_dropLast h
      · simp only [Lru.put, Lru.lookup, hs, if_false, Bool.false_eq_true, hl] at h ⊢
        rwa [lookupA, if_neg (Ne.symm hk)] at h

theorem lookup_put_ne_of_present {s : Lru} {k : Nat} (k' : Nat) {v : LogCluster}
    (hk : k' ≠ k) (hs : (lookupA s.entries k).isSome) :
    (s.put k v).lookup k' = s.lookup k' := by
  simp only [Lru.put, Lru.lookup, hs, if_true]
  rw [lookupA, if_neg (Ne.symm hk)]
  exact lookupA_removeA_ne _ _ _ hk

theorem lookup_put_isSome_unbounded {s : Lru} (hc : s.cap = none) {k' : Nat}
    (h : (s.lookup k').isSome) (k : Nat) (v : LogCluster) :
    ((s.put k v).lookup k').isSome := by
  by_cases hk : k' = k
  · subst hk
    rw [lookup_put_self]
    rfl
  · by_cases hs : (lookupA s.entries k).isSome
    · rw [lookup_put_ne_of_present k' hk hs]
      exact h
    · obtain ⟨entries, cap⟩ := s
      subst hc
      simp only [Lru.put, Lru.lookup, hs, if_false, Bool.false_eq_true] at h ⊢
      rwa [lookupA, if_neg (Ne.symm hk)]

/-- The fast-match loop only promotes store entries: its observable
footprint is unchanged. -/
theorem fastMatchLoop_lruSim (param : String) (tokens : List String) (inc : Bool) :
    ∀ (ids : List Nat) (store : Lru) (ms : ℚ) (mp : ℤ) (best : Option LogCluster),
      LruSim store (fastMatchLoop param tokens inc ids store ms mp best).1
  | [], _, _, _, _ => LruSim.refl _
  | id :: rest, store, ms, mp, best => by
    rw [fastMatchLoop]
    have hsim := lruSim_get store id
    cases hg : store.get id with
    | mk ov store' =>
      rw [hg] at hsim
      cases ov with
      | none =>
        simpa using hsim.trans (fastMatchLoop_lruSim param tokens inc rest store' ms mp best)
      | some cluster =>
        by_cases hb :
            (getSeqDistance param tokens cluster.logTemplateTokens inc).1 > ms ∨
              ((getSeqDistance param tokens cluster.logTemplateTokens inc).1 = ms ∧
                (getSeqDistance param tokens cluster.logTemplateTokens inc).2 > mp)
        · simpa [hb] using hsim.trans (fastMatchLoop_lruSim param tokens inc rest store' _ _ _)
        · simpa [hb] using hsim.trans (fastMatchLoop_lruSim param tokens inc rest store' ms mp best)

/-- `tree_search` only promotes store entries. -/
theorem treeSearch_lruSim {d : Drain} {tokens : List String} {th : ℚ} {inc : Bool}
    {store1 : Lru} {res : Option LogCluster}
    (h : treeSearch d tokens th inc = some (store1, res)) : LruSim d.idToCluster store1 := by
  cases hb : lookupA d.buckets tokens.length with
  | none =>
    simp only [treeSearch, hb, Option.some.injEq, Prod.mk.injEq] at h
    exact h.1 ▸ LruSim.refl _
  | some bucket =>
    by_cases htc : tokens.length = 0
    · rw [htc] at hb
      cases hids : bucket.clusterIds with
      | nil => simp [treeSearch, hb, htc, hids] at h
      | cons i rest =>
        simp only [treeSearch, hb, htc, if_true, hids, Option.some.injEq, Prod.mk.injEq] at h
        have := lruSim_get d.idToCluster i
        exact h.1 ▸ this
    · cases hl : treeSearchLoop d.paramStr d.maxNodeDepth tokens.length tokens 1 bucket with
      | none =>
        simp only [treeSearch, hb, htc, if_false, hl, Option.some.injEq, Prod.mk.injEq] at h
        exact h.1 ▸ LruSim.refl _
      | some leaf =>
        simp only [treeSearch, hb, htc, if_false, hl, Option.some.injEq] at h
        have hfm' : LruSim d.idToCluster
            (fastMatch d.paramStr tokens th inc leaf.clusterIds d.idToCluster).1 :=
          fastMatchLoop_lruSim d.paramStr tokens inc leaf.clusterIds
            d.idToCluster (-1) (-1) none
        have hs1 : (fastMatch d.paramStr tokens th inc leaf.clusterIds d.idToCluster).1 =
            store1 := congrArg Prod.fst h
        exact hs1 ▸ hfm'

/-! ## Fast-match selection order -/

/-- The score `fast_match` computes for a candidate cluster. -/
def score (param : String) (tokens : List String) (inc : Bool) (c : LogCluster) : ℚ × ℤ :=
  getSeqDistance param tokens c.logTemplateTokens inc

/-- Lexicographic `≤` on (similarity, wildcard-count) pairs: exactly
"does not beat" for the update test of `fast_match`. -/
def lexLe (p q : ℚ × ℤ) : Prop :=
  p.1 < q.1 ∨ (p.1 = q.1 ∧ p.2 ≤ q.2)

theorem lexLe_trans {p q r : ℚ × ℤ} (h1 : lexLe p q) (h2 : lexLe q r) : lexLe p r := by
  rcases h1 with h1 | ⟨h1, h1'⟩ <;> rcases h2 with h2 | ⟨h2, h2'⟩
  · exact Or.inl (h1.trans h2)
  · exact Or.inl (h2 ▸ h1)
  · exact Or.inl (h1 ▸ h2)
  · exact Or.inr ⟨h1.trans h2, h1'.trans h2'⟩

theorem not_beats_iff_lexLe (p q : ℚ × ℤ) :
    ¬(p.1 > q.1 ∨ (p.1 = q.1 ∧ p.2 > q.2)) ↔ lexLe p q := by
  unfold lexLe
  constructor
  · intro h
    push_neg at h
    rcases lt_or_eq_of_le h.1 with h' | h'
    · exact Or.inl h'
    · exact Or.inr ⟨h', h.2 h'⟩
  · intro h
    push_neg
    rcases h with h | ⟨h, h'⟩
    · exact ⟨le_of_lt h, fun he => absurd (he ▸ h) (lt_irrefl _)⟩
    · exact ⟨le_of_eq h, fun _ => h'⟩

theorem beats_lexLe {p q : ℚ × ℤ}
    (h : p.1 > q.1 ∨ (p.1 = q.1 ∧ p.2 > q.2)) : lexLe q p := by
  rcases h with h | ⟨h, h'⟩
  · exact Or.inl h
  · exact Or.inr ⟨h.symm, le_of_lt h'⟩

/-- Full characterization of the fast-match loop: every live candidate's
score is `lexLe` the final accumulator; the final best is either the initial
one (accumulator unchanged) or a live candidate whose score is the final
accumulator; the accumulator only grows. -/
theorem fastMatchLoop_spec (param : String) (tokens : List String) (inc : Bool) :
    ∀ (ids : List Nat) (store : Lru) (ms : ℚ) (mp : ℤ) (best : Option LogCluster),
      (∀ id ∈ ids, ∀ c, store.lookup id = some c →
        lexLe (score param tokens inc c)
          ((fastMatchLoop param tokens inc ids store ms mp best).2.1,
           (fastMatchLoop param tokens inc ids store ms mp best).2.2.1)) ∧
      (((fastMatchLoop param tokens inc ids store ms mp best).2.2.2 = best ∧
          (fastMatchLoop param tokens inc ids store ms mp best).2.1 = ms ∧
          (fastMatchLoop param tokens inc ids store ms mp best).2.2.1 = mp) ∨
        (∃ id ∈ ids, ∃ c, store.lookup id = some c ∧
          (fastMatchLoop param tokens inc ids store ms mp best).2.2.2 = some c ∧
          (fastMatchLoop param tokens inc ids store ms mp best).2.1 =
            (score param tokens inc c).1 ∧
          (fastMatchLoop param tokens inc ids store ms mp best).2.2.1 =
            (score param tokens inc c).2)) ∧
      lexLe (ms, mp)
        ((fastMatchLoop param tokens inc ids store ms mp best).2.1,
         (fastMatchLoop param tokens inc ids store ms mp best).2.2.1)
  | [], store, ms, mp, best => by
    refine ⟨by simp [fastMatchLoop], Or.inl (by simp [fastMatchLoop]), ?_⟩
    simp only [fastMatchLoop]
    exact Or.inr ⟨rfl, le_refl _⟩
  | id :: rest, store, ms, mp, best => by
    have hsim := lruSim_get store id
    rw [fastMatchLoop]
    cases hg : store.get id with
    | mk ov store' =>
      rw [hg] at hsim
      have hlk : ∀ k, store'.lookup k = store.lookup k := hsim.2.1
      cases ov with
      | none =>
        have hmiss : store.lookup id = none := by
          unfold Lru.get at hg
          unfold Lru.lookup
          cases hl : lookupA store.entries id with
          | none => rfl
          | some v => rw [hl] at hg; simp at hg
        simp only
        obtain ⟨ih1, ih2, ih3⟩ := fastMatchLoop_spec param tokens inc rest store' ms mp best
        refine ⟨?_, ?_, ih3⟩
        · intro i hi c hc
          rcases List.mem_cons.mp hi with rfl | hi
          · rw [hmiss] at hc; cases hc
          · exact ih1 i hi c ((hlk i).symm ▸ hc)
        · rcases ih2 with ih2 | ⟨i, hi, c, hc, hb, hs, hp⟩
          · exact Or.inl ih2
          · exact Or.inr ⟨i, List.mem_cons_of_mem _ hi, c, (hlk i) ▸ hc, hb, hs, hp⟩
      | some cluster =>
        have hhit : store.lookup id = some cluster := by
          unfold Lru.get at hg
          unfold Lru.lookup
          cases hl : lookupA store.entries id with
          | none => rw [hl] at hg; simp at hg
          | some v =>
            rw [hl] at hg
            simp only [Prod.mk.injEq, Option.some.injEq] at hg
            rw [hg.1]
        by_cases hb :
            (getSeqDistance param tokens cluster.logTemplateTokens inc).1 > ms ∨
              ((getSeqDistance param tokens cluster.logTemplateTokens inc).1 = ms ∧
                (getSeqDistance param tokens cluster.logTemplateTokens inc).2 > mp)
        · simp only [if_pos hb]
          obtain ⟨ih1, ih2, ih3⟩ := fastMatchLoop_spec param tokens inc rest store'
            (getSeqDistance param tokens cluster.logTemplateTokens inc).1
            (getSeqDistance param tokens cluster.logTemplateTokens inc).2 (some cluster)
          refine ⟨?_, ?_, ?_⟩
          · intro i hi c hc
            rcases List.mem_cons.mp hi with rfl | hi
            · rw [hhit] at hc
              obtain rfl : cluster = c := Option.some_inj.mp hc
              exact ih3
            · exact ih1 i hi c ((hlk i).symm ▸ hc)
          · rcases ih2 with ⟨hbest, hs, hp⟩ | ⟨i, hi, c, hc, hbq, hs, hp⟩
            · exact Or.inr ⟨id, List.mem_cons_self _ _, cluster, hhit, hbest, hs, hp⟩
            · exact Or.inr ⟨i, List.mem_cons_of_mem _ hi, c, (hlk i) ▸ hc, hbq, hs, hp⟩
          · exact lexLe_trans (beats_lexLe hb) ih3
        · simp only [if_neg hb]
          obtain ⟨ih1, ih2, ih3⟩ := fastMatchLoop_spec param tokens inc rest store' ms mp best
          refine ⟨?_, ?_, ih3⟩
          · intro i hi c hc
            rcases List.mem_cons.mp hi with rfl | hi
            · rw [hhit] at hc
              obtain rfl : cluster = c := Option.some_inj.mp hc
              exact lexLe_trans ((not_beats_iff_lexLe _ _).mp hb) ih3
            · exact ih1 i hi c ((hlk i).symm ▸ hc)
          · rcases ih2 with ih2 | ⟨i, hi, c, hc, hbq, hs, hp⟩
            · exact Or.inl ih2
            · exact Or.inr ⟨i, List.mem_cons_of_mem _ hi, c, (hlk i) ▸ hc, hbq, hs, hp⟩

theorem getSeqDistance_fst_nonneg (param : String) (seq1 seq2 : List String) (inc : Bool) :
    0 ≤ (getSeqDistance param seq1 seq2 inc).1 := by
  unfold getSeqDistance
  exact div_nonneg (by positivity) (by positivity)

/-- The wildcard tally the spec's words attribute to the similarity
computation: the number of compared positions whose STORED-template token is
the wildcard marker ("a wildcard position in the stored template is counted
in a separate wildcard tally"). -/
def specStoredWildcardTally (param : String) (seq1 seq2 : List String) : ℤ :=
  (((seq1.zip seq2).filter fun p => p.2 = param).length : ℤ)

/-- C1, counterexample.  The claim states that the separate wildcard tally
counts wildcard positions of the STORED template (`seq2`); on incoming
tokens `["a"]` against stored template `["<*>"]` the code's tally is 0
while the stored template has one wildcard position, because
`get_seq_distance` tests `seq1` — the incoming tokens — against the marker. -/
theorem c1_stored_tally_counterexample :
    (getSeqDistance "<*>" ["a"] ["<*>"] false).2 ≠
      specStoredWildcardTally "<*>" ["a"] ["<*>"] := by
  decide

/-- C1 (amended): for every incoming sequence `seq1` and stored template
`seq2`, the fast-match score in default mode is `matched_count / n` where a
position counts toward `matched_count` iff the two tokens are exactly equal
and the stored token is not the wildcard marker — but the separate wildcard
tally counts positions where the INCOMING token equals the wildcard marker
(not wildcard positions of the stored template), and that tally is excluded
from the numerator in `include_params = false` mode.  (The similarity
quotient itself agrees with the claim; only the tally's side is corrected.
`n = seq1.length` is the incoming length, positive whenever `fast_match`
is invoked by `tree_search`.) -/
theorem c1_similarity_formula (param : String) (seq1 seq2 : List String) :
    getSeqDistance param seq1 seq2 false =
      ((((seq1.zip seq2).filter fun p => p.1 = p.2 ∧ p.2 ≠ param).length : ℚ) /
          (seq1.length : ℚ),
        (((seq1.zip seq2).filter fun p => p.1 = param).length : ℤ)) := by
  unfold getSeqDistance
  have hfilter :
      ((seq1.zip seq2).filter fun p => !decide (p.1 = param) && decide (p.1 = p.2)) =
        (seq1.zip seq2).filter fun p => decide (p.1 = p.2) && !decide (p.2 = param) := by
    apply List.filter_congr
    intro p _
    by_cases h12 : p.1 = p.2 <;> simp [h12]
  simp [hfilter]

/-- C2, counterexample.  Two live candidates with equal similarity for the
incoming tokens `["a", "b"]`: the first-listed cluster 1 with template
`["a", "c"]` (no wildcard), and cluster 2 with template `["a", "<*>"]`
(one wildcard position, the more general template).  The claim says the
candidate with the higher stored-template wildcard count — cluster 2 — is
selected; the code selects cluster 1, because the tie-break compares the
wildcard tally of the incoming sequence, which is identical for both
candidates, so the earlier candidate survives. -/
theorem c2_tie_break_counterexample :
    (fastMatch "<*>" ["a", "b"] ((2 : ℚ) / 5) false [1, 2]
        ⟨[(1, ⟨["a", "c"], 1, 1⟩), (2, ⟨["a", "<*>"], 2, 1⟩)], none⟩).2 =
      some ⟨["a", "c"], 1, 1⟩ ∧
    (getSeqDistance "<*>" ["a", "b"] ["a", "c"] false).1 =
      (getSeqDistance "<*>" ["a", "b"] ["a", "<*>"] false).1 ∧
    specStoredWildcardTally "<*>" ["a", "b"] ["a", "c"] <
      specStoredWildcardTally "<*>" ["a", "b"] ["a", "<*>"] := by
  refine ⟨?_, by simp [getSeqDistance], by decide⟩
  simp [fastMatch, fastMatchLoop, getSeqDistance, Lru.get, Lru.lookup, lookupA, removeA]
  norm_num

/-- C2 (amended): among the candidates in the leaf's id list that are still
present in the store, fast match returns a candidate `c` only if `c` is live,
its similarity reaches the threshold, and no live candidate's
(similarity, wildcard-tally) pair — the tally being the incoming-sequence
wildcard count computed by `get_seq_distance`, which is equal for all
candidates of equal template length, so equal-similarity ties keep the
earliest-listed candidate rather than the more-wildcarded template — beats
`c`'s pair lexicographically; and it returns no candidate exactly when every
live candidate's similarity is strictly below the threshold. -/
theorem c2_fast_match_selection (param : String) (tokens : List String) (inc : Bool)
    (th : ℚ) (ids : List Nat) (store store' : Lru) (res : Option LogCluster)
    (hrun : fastMatch param tokens th inc ids store = (store', res)) :
    (∀ c, res = some c →
      (∃ id ∈ ids, store.lookup id = some c) ∧
      th ≤ (score param tokens inc c).1 ∧
      ∀ id ∈ ids, ∀ d, store.lookup id = some d →
        lexLe (score param tokens inc d) (score param tokens inc c)) ∧
    (res = none →
      ∀ id ∈ ids, ∀ d, store.lookup id = some d → (score param tokens inc d).1 < th) := by
  obtain ⟨sp1, sp2, sp3⟩ := fastMatchLoop_spec param tokens inc ids store (-1) (-1) none
  have hres : res = if (fastMatchLoop param tokens inc ids store (-1) (-1) none).2.1 ≥ th
      then (fastMatchLoop param tokens inc ids store (-1) (-1) none).2.2.2 else none := by
    have := congrArg Prod.snd hrun
    exact this.symm
  by_cases hth : (fastMatchLoop param tokens inc ids store (-1) (-1) none).2.1 ≥ th
  · rw [if_pos hth] at hres
    constructor
    · intro c hc
      rw [hc] at hres
      rcases sp2 with ⟨hb, _, _⟩ | ⟨id, hid, c', hc', hb, hs, hp⟩
      · rw [← hres] at hb
        cases hb
      · rw [← hres] at hb
        obtain rfl : c' = c := Option.some_inj.mp hb.symm
        refine ⟨⟨id, hid, hc'⟩, ?_, ?_⟩
        · rw [← hs]
          exact hth
        · intro i hi d hd
          have := sp1 i hi d hd
          rw [hs, hp] at this
          exact this
    · intro hnone
      rw [hnone] at hres
      rcases sp2 with ⟨_, hs, hp⟩ | ⟨id, hid, c', hc', hb, hs, hp⟩
      · intro i hi d hd
        exfalso
        have hle := sp1 i hi d hd
        rw [hs, hp] at hle
        have hge : 0 ≤ (score param tokens inc d).1 :=
          getSeqDistance_fst_nonneg param tokens d.logTemplateTokens inc
        rcases hle with hlt | ⟨heq, _⟩
        · exact absurd (lt_of_le_of_lt hge hlt) (by norm_num)
        · rw [heq] at hge
          exact absurd hge (by norm_num)
      · rw [← hres] at hb
        cases hb
  · rw [if_neg hth] at hres
    constructor
    · intro c hc
      rw [hc] at hres
      cases hres
    · intro _ i hi d hd
      have hle := sp1 i hi d hd
      push_neg at hth
      rcases hle with hlt | ⟨heq, _⟩
      · exact lt_trans hlt hth
      · rw [heq]
        exact hth

/-- Witness for C2: on a store holding the single cluster `⟨["a","b"],1,1⟩`
and candidate list `[1]`, fast match returns that cluster, the theorem's
hypothesis holds by computation, and its conclusion yields that the winner
is a live candidate. -/
theorem c2_fast_match_selection_witness :
    ∃ id ∈ [1], Lru.lookup ⟨[(1, ⟨["a", "b"], 1, 1⟩)], none⟩ id =
      some ⟨["a", "b"], 1, 1⟩ :=
  ((c2_fast_match_selection "<*>" ["a", "b"] false ((2 : ℚ) / 5) [1]
      ⟨[(1, ⟨["a", "b"], 1, 1⟩)], none⟩
      ⟨[(1, ⟨["a", "b"], 1, 1⟩)], none⟩
      (some ⟨["a", "b"], 1, 1⟩)
      (by simp [fastMatch, fastMatchLoop, getSeqDistance, Lru.get, Lru.lookup, lookupA,
            removeA]
          norm_num)).1
    ⟨["a", "b"], 1, 1⟩ rfl).1

/-- C7: template generalization is monotone at the merge level — for every
merge performed by `train` (`create_template` of the incoming tokens `seq1`
against the stored template `seq2`), a position of the stored template that
already equals the wildcard marker is still the wildcard marker in the
merged template. -/
theorem c7_template_merge_monotone (param : String) (seq1 seq2 : List String) (i : Nat)
    (h1 : i < seq1.length) (h2 : seq2[i]? = some param) :
    (createTemplate param seq1 seq2)[i]? = some param := by
  have ht1 : seq1[i]? = some seq1[i] := List.getElem?_eq_getElem h1
  have hz : (seq1.zip seq2)[i]? = some (seq1[i], param) :=
    List.getElem?_zip_eq_some.mpr ⟨ht1, h2⟩
  unfold createTemplate
  rw [List.getElem?_map, hz]
  by_cases h : seq1[i] = param <;> simp [h]

/-- Witness for C7 at concrete input: merging incoming `["x"]` into stored
template `["<*>"]` keeps the wildcard at position 0. -/
theorem c7_template_merge_monotone_witness :
    (createTemplate "<*>" ["x"] ["<*>"])[0]? = some "<*>" :=
  c7_template_merge_monotone "<*>" ["x"] ["<*>"] 0 (by decide) (by decide)

/-! ## Subtree id lemmas -/

theorem mem_allIds_of_clusterIds {n : Node} {id : Nat} (h : id ∈ n.clusterIds) :
    id ∈ n.allIds := by
  cases n with
  | mk cs ids =>
    rw [Node.allIds]
    exact List.mem_append_left _ h

theorem mem_allIdsChildren_of_mem {cs : List (String × Node)} {k : String} {c : Node}
    (hm : (k, c) ∈ cs) : ∀ id ∈ c.allIds, id ∈ allIdsChildren cs := by
  induction cs with
  | nil => cases hm
  | cons q rest ih =>
    obtain ⟨k', c'⟩ := q
    intro id hid
    rw [allIdsChildren]
    rcases List.mem_cons.mp hm with he | hm'
    · obtain ⟨rfl, rfl⟩ := Prod.mk.injEq .. ▸ he
      exact List.mem_append_left _ hid
    · exact List.mem_append_right _ (ih hm' id hid)

theorem mem_allIds_of_child {cs : List (String × Node)} {ids : List Nat} {k : String}
    {c : Node} (hm : (k, c) ∈ cs) {id : Nat} (hid : id ∈ c.allIds) :
    id ∈ (Node.mk cs ids).allIds := by
  rw [Node.allIds]
  exact List.mem_append_right _ (mem_allIdsChildren_of_mem hm id hid)

/-- The leaf reached by the search descent only holds ids of the subtree it
started from. -/
theorem treeSearchLoop_allIds (param : String) (maxD tc : Nat) :
    ∀ (tokens : List String) (depth : Nat) (node leaf : Node),
      treeSearchLoop param maxD tc tokens depth node = some leaf →
      ∀ id ∈ leaf.clusterIds, id ∈ node.allIds
  | [], depth, node, leaf => by
    intro h
    rw [treeSearchLoop] at h
    obtain rfl : node = leaf := Option.some_inj.mp h
    exact fun id hid => mem_allIds_of_clusterIds hid
  | t :: rest, depth, node, leaf => by
    intro h
    rw [treeSearchLoop] at h
    by_cases hstop : depth = maxD ∨ depth = tc
    · rw [if_pos hstop] at h
      obtain rfl : node = leaf := Option.some_inj.mp h
      exact fun id hid => mem_allIds_of_clusterIds hid
    · rw [if_neg hstop] at h
      cases ht : lookupA node.keyToChildNode t with
      | some child =>
        rw [ht] at h
        simp only [Option.orElse] at h
        intro id hid
        have hrec := treeSearchLoop_allIds param maxD tc rest (depth + 1) child leaf h id hid
        cases node with
        | mk cs ids => exact mem_allIds_of_child (lookupA_mem ht) hrec
      | none =>
        rw [ht] at h
        simp only [Option.orElse] at h
        cases hp : lookupA node.keyToChildNode param with
        | none => rw [hp] at h; cases h
        | some child =>
          rw [hp] at h
          intro id hid
          have hrec := treeSearchLoop_allIds param maxD tc rest (depth + 1) child leaf h id hid
          cases node with
          | mk cs ids => exact mem_allIds_of_child (lookupA_mem hp) hrec

/-! ## Height lemmas -/

theorem height_succ_le_of_mem {cs : List (String × Node)} {k : String} {c : Node}
    (hm : (k, c) ∈ cs) : c.height + 1 ≤ heightChildren cs := by
  induction cs with
  | nil => cases hm
  | cons q rest ih =>
    obtain ⟨k', c'⟩ := q
    rw [heightChildren]
    rcases List.mem_cons.mp hm with he | hm'
    · obtain ⟨rfl, rfl⟩ := Prod.mk.injEq .. ▸ he
      exact le_max_left _ _
    · exact le_trans (ih hm') (le_max_right _ _)

theorem heightChildren_le {cs : List (String × Node)} {B : Nat}
    (h : ∀ p ∈ cs, p.2.height + 1 ≤ B) : heightChildren cs ≤ B := by
  induction cs with
  | nil =>
    rw [heightChildren]
    exact Nat.zero_le _
  | cons q rest ih =>
    obtain ⟨k, c⟩ := q
    rw [heightChildren]
    exact max_le (h (k, c) (List.mem_cons_self _ _))
      (ih fun p hp => h p (List.mem_cons_of_mem _ hp))

theorem height_empty : Node.empty.height = 0 := rfl

/-! ## Bounded-children lemmas -/

theorem boundedChildrenB_mem {mc : Nat} {param : String} {cs : List (String × Node)}
    (h : boundedChildrenB mc param cs = true) {k : String} {c : Node} (hm : (k, c) ∈ cs) :
    c.boundedB mc param = true := by
  induction cs with
  | nil => cases hm
  | cons q rest ih =>
    obtain ⟨k', c'⟩ := q
    rw [boundedChildrenB, Bool.and_eq_true] at h
    rcases List.mem_cons.mp hm with he | hm'
    · obtain ⟨rfl, rfl⟩ := Prod.mk.injEq .. ▸ he
      exact h.1
    · exact ih h.2 hm'

theorem boundedChildrenB_insertA {mc : Nat} {param : String} {cs : List (String × Node)}
    (h : boundedChildrenB mc param cs = true) (k : String) {c : Node}
    (hc : c.boundedB mc param = true) :
    boundedChildrenB mc param (insertA cs k c) = true := by
  induction cs with
  | nil =>
    rw [insertA, boundedChildrenB, boundedChildrenB, Bool.and_eq_true]
    exact ⟨hc, rfl⟩
  | cons q rest ih =>
    obtain ⟨k', c'⟩ := q
    rw [boundedChildrenB, Bool.and_eq_true] at h
    by_cases hk : k' = k
    · subst hk
      rw [insertA, if_pos rfl, boundedChildrenB, Bool.and_eq_true]
      exact ⟨hc, h.2⟩
    · rw [insertA, if_neg hk, boundedChildrenB, Bool.and_eq_true]
      exact ⟨h.1, ih h.2⟩

theorem boundedB_empty {mc : Nat} {param : String} (hmc : 1 ≤ mc) :
    Node.empty.boundedB mc param = true := by
  rw [Node.empty, Node.boundedB]
  simp [boundedChildrenB, containsA, lookupA]
  omega

/-! ## Child selection -/

/-- Everything the insertion walk needs about one `selectChild` step, under
the branching invariant of the node (`≤ mc` children, a wildcard child when
full) and `mc ≥ 1`: the chosen key is present in the updated children map,
the map keeps the invariant, its entries are old entries or a fresh empty
node, its keys are old keys plus possibly the chosen one, and its length is
bounded by `mc`. -/
theorem selectChild_spec {param : String} {mc : Nat} {cs : List (String × Node)}
    {t key : String} {cs' : List (String × Node)}
    (hlen : cs.length ≤ mc)
    (hfull : cs.length = mc → containsA cs param = true)
    (hsel : selectChild param mc cs t = some (key, cs')) :
    (∃ child, lookupA cs' key = some child ∧
      (lookupA cs key = some child ∨ child = Node.empty)) ∧
    cs'.length ≤ mc ∧
    (cs'.length = mc → containsA cs' param = true) ∧
    (∀ p ∈ cs', p ∈ cs ∨ p.2 = Node.empty) ∧
    (∀ a, containsA cs' a = true → containsA cs a = true ∨ a = key) := by
  have hmem_ins : ∀ (c0 : Node) (p : String × Node), p ∈ insertA cs t c0 → p ∈ cs ∨ p.2 = c0 := by
    intro c0 p hp
    rcases mem_insertA hp with he | hm
    · exact Or.inr (congrArg Prod.snd he)
    · exact Or.inl hm
  have hmem_insp : ∀ (c0 : Node) (p : String × Node), p ∈ insertA cs param c0 →
      p ∈ cs ∨ p.2 = c0 := by
    intro c0 p hp
    rcases mem_insertA hp with he | hm
    · exact Or.inr (congrArg Prod.snd he)
    · exact Or.inl hm
  unfold selectChild at hsel
  by_cases h1 : containsA cs t = true
  · rw [if_pos h1] at hsel
    obtain ⟨rfl, rfl⟩ : t = key ∧ cs = cs' := Prod.mk.injEq .. ▸ Option.some_inj.mp hsel
    rw [containsA] at h1
    obtain ⟨child, hchild⟩ := Option.isSome_iff_exists.mp h1
    exact ⟨⟨child, hchild, Or.inl hchild⟩, hlen, hfull,
      fun p hp => Or.inl hp, fun a ha => Or.inl ha⟩
  · rw [if_neg h1] at hsel
    by_cases h2 : hasNumber t = true
    · rw [if_pos h2] at hsel
      by_cases h3 : containsA cs param = true
      · rw [if_pos h3] at hsel
        obtain ⟨rfl, rfl⟩ : param = key ∧ cs = cs' :=
          Prod.mk.injEq .. ▸ Option.some_inj.mp hsel
        rw [containsA] at h3
        obtain ⟨child, hchild⟩ := Option.isSome_iff_exists.mp h3
        exact ⟨⟨child, hchild, Or.inl hchild⟩, hlen, hfull,
          fun p hp => Or.inl hp, fun a ha => Or.inl ha⟩
      · rw [if_neg h3] at hsel
        obtain ⟨rfl, rfl⟩ : param = key ∧ insertA cs param Node.empty = cs' :=
          Prod.mk.injEq .. ▸ Option.some_inj.mp hsel
        have h3' : containsA cs param = false := Bool.not_eq_true _ ▸ h3
        have hlen' : (insertA cs param Node.empty).length = cs.length + 1 :=
          length_insertA_of_not_contains _ h3'
        have hle : cs.length + 1 ≤ mc := by
          rcases lt_or_eq_of_le hlen with h | h
          · omega
          · exact absurd (hfull h) (by rw [h3']; exact Bool.false_ne_true)
        refine ⟨⟨Node.empty, lookupA_insertA_self _ _ _, Or.inr rfl⟩, by omega, ?_, hmem_insp _, ?_⟩
        · intro _
          rw [containsA, lookupA_insertA_self]
          rfl
        · intro a ha
          rw [containsA_insertA] at ha
          rcases Bool.or_eq_true .. ▸ ha with h' | h'
          · exact Or.inl h'
          · exact Or.inr (of_decide_eq_true h')
    · rw [if_neg h2] at hsel
      by_cases h3 : containsA cs param = true
      · rw [if_pos h3] at hsel
        by_cases h4 : cs.length < mc
        · rw [if_pos h4] at hsel
          obtain ⟨rfl, rfl⟩ : t = key ∧ insertA cs t Node.empty = cs' :=
            Prod.mk.injEq .. ▸ Option.some_inj.mp hsel
          have h1' : containsA cs t = false := Bool.not_eq_true _ ▸ h1
          have hlen' : (insertA cs t Node.empty).length = cs.length + 1 :=
            length_insertA_of_not_contains _ h1'
          refine ⟨⟨Node.empty, lookupA_insertA_self _ _ _, Or.inr rfl⟩, by omega, ?_,
            hmem_ins _, ?_⟩
          · intro _
            rw [containsA]
            have hpt : param ≠ t := by
              intro he
              rw [he] at h3
              exact absurd h3 (by rw [h1']; exact Bool.false_ne_true)
            rw [lookupA_insertA_ne _ _ _ _ hpt]
            rw [containsA] at h3
            exact h3
          · intro a ha
            rw [containsA_insertA] at ha
            rcases Bool.or_eq_true .. ▸ ha with h' | h'
            · exact Or.inl h'
            · exact Or.inr (of_decide_eq_true h')
        · rw [if_neg h4] at hsel
          obtain ⟨rfl, rfl⟩ : param = key ∧ cs = cs' :=
            Prod.mk.injEq .. ▸ Option.some_inj.mp hsel
          rw [containsA] at h3
          obtain ⟨child, hchild⟩ := Option.isSome_iff_exists.mp h3
          exact ⟨⟨child, hchild, Or.inl hchild⟩, hlen, hfull,
            fun p hp => Or.inl hp, fun a ha => Or.inl ha⟩
      · rw [if_neg h3] at hsel
        by_cases h4 : cs.length + 1 < mc
        · rw [if_pos h4] at hsel
          obtain ⟨rfl, rfl⟩ : t = key ∧ insertA cs t Node.empty = cs' :=
            Prod.mk.injEq .. ▸ Option.some_inj.mp hsel
          have h1' : containsA cs t = false := Bool.not_eq_true _ ▸ h1
          have hlen' : (insertA cs t Node.empty).length = cs.length + 1 :=
            length_insertA_of_not_contains _ h1'
          refine ⟨⟨Node.empty, lookupA_insertA_self _ _ _, Or.inr rfl⟩, by omega,
            by omega, hmem_ins _, ?_⟩
          intro a ha
          rw [containsA_insertA] at ha
          rcases Bool.or_eq_true .. ▸ ha with h' | h'
          · exact Or.inl h'
          · exact Or.inr (of_decide_eq_true h')
        · rw [if_neg h4] at hsel
          by_cases h5 : cs.length + 1 = mc
          · rw [if_pos h5] at hsel
            obtain ⟨rfl, rfl⟩ : param = key ∧ insertA cs param Node.empty = cs' :=
              Prod.mk.injEq .. ▸ Option.some_inj.mp hsel
            have h3' : containsA cs param = false := Bool.not_eq_true _ ▸ h3
            have hlen' : (insertA cs param Node.empty).length = cs.length + 1 :=
              length_insertA_of_not_contains _ h3'
            refine ⟨⟨Node.empty, lookupA_insertA_self _ _ _, Or.inr rfl⟩, by omega, ?_,
              hmem_insp _, ?_⟩
            · intro _
              rw [containsA, lookupA_insertA_self]
              rfl
            · intro a ha
              rw [containsA_insertA] at ha
              rcases Bool.or_eq_true .. ▸ ha with h' | h'
              · exact Or.inl h'
              · exact Or.inr (of_decide_eq_true h')
          · rw [if_neg h5] at hsel
            cases hsel

theorem boundedChildrenB_iff_forall {mc : Nat} {param : String}
    {cs : List (String × Node)} :
    boundedChildrenB mc param cs = true ↔ ∀ p ∈ cs, p.2.boundedB mc param = true := by
  induction cs with
  | nil => simp [boundedChildrenB]
  | cons q rest ih =>
    obtain ⟨k, c⟩ := q
    rw [boundedChildrenB, Bool.and_eq_true, ih]
    constructor
    · rintro ⟨h1, h2⟩ p hp
      rcases List.mem_cons.mp hp with he | hm
      · exact he ▸ h1
      · exact h2 p hm
    · intro h
      exact ⟨h (k, c) (List.mem_cons_self _ _), fun p hp => h p (List.mem_cons_of_mem _ hp)⟩

/-- What `selectChild` does to the children map, with no assumptions: it
either keeps it (the chosen key already present) or inserts one fresh empty
node at the chosen key. -/
theorem selectChild_shape {param : String} {mc : Nat} {cs : List (String × Node)}
    {t key : String} {cs' : List (String × Node)}
    (hsel : selectChild param mc cs t = some (key, cs')) :
    (cs' = cs ∧ containsA cs key = true) ∨ cs' = insertA cs key Node.empty := by
  unfold selectChild at hsel
  by_cases h1 : containsA cs t = true
  · rw [if_pos h1] at hsel
    obtain ⟨rfl, rfl⟩ : t = key ∧ cs = cs' := Prod.mk.injEq .. ▸ Option.some_inj.mp hsel
    exact Or.inl ⟨rfl, h1⟩
  · rw [if_neg h1] at hsel
    by_cases h2 : hasNumber t = true
    · rw [if_pos h2] at hsel
      by_cases h3 : containsA cs param = true
      · rw [if_pos h3] at hsel
        obtain ⟨rfl, rfl⟩ : param = key ∧ cs = cs' :=
          Prod.mk.injEq .. ▸ Option.some_inj.mp hsel
        exact Or.inl ⟨rfl, h3⟩
      · rw [if_neg h3] at hsel
        obtain ⟨rfl, rfl⟩ : param = key ∧ insertA cs param Node.empty = cs' :=
          Prod.mk.injEq .. ▸ Option.some_inj.mp hsel
        exact Or.inr rfl
    · rw [if_neg h2] at hsel
      by_cases h3 : containsA cs param = true
      · rw [if_pos h3] at hsel
        by_cases h4 : cs.length < mc
        · rw [if_pos h4] at hsel
          obtain ⟨rfl, rfl⟩ : t = key ∧ insertA cs t Node.empty = cs' :=
            Prod.mk.injEq .. ▸ Option.some_inj.mp hsel
          exact Or.inr rfl
        · rw [if_neg h4] at hsel
          obtain ⟨rfl, rfl⟩ : param = key ∧ cs = cs' :=
            Prod.mk.injEq .. ▸ Option.some_inj.mp hsel
          exact Or.inl ⟨rfl, h3⟩
      · rw [if_neg h3] at hsel
        by_cases h4 : cs.length + 1 < mc
        · rw [if_pos h4] at hsel
          obtain ⟨rfl, rfl⟩ : t = key ∧ insertA cs t Node.empty = cs' :=
            Prod.mk.injEq .. ▸ Option.some_inj.mp hsel
          exact Or.inr rfl
        · rw [if_neg h4] at hsel
          by_cases h5 : cs.length + 1 = mc
          · rw [if_pos h5] at hsel
            obtain ⟨rfl, rfl⟩ : param = key ∧ insertA cs param Node.empty = cs' :=
              Prod.mk.injEq .. ▸ Option.some_inj.mp hsel
            exact Or.inr rfl
          · rw [if_neg h5] at hsel
            cases hsel

theorem allIds_empty : Node.empty.allIds = [] := rfl

theorem mem_allIdsChildren_insertA {cs : List (String × Node)} {k : String} {c' : Node}
    {id : Nat} (h : id ∈ allIdsChildren (insertA cs k c')) :
    id ∈ c'.allIds ∨ id ∈ allIdsChildren cs := by
  induction cs with
  | nil =>
    rw [insertA, allIdsChildren, allIdsChildren] at h
    simp only [List.append_nil] at h
    exact Or.inl h
  | cons q rest ih =>
    obtain ⟨k', c''⟩ := q
    by_cases hk : k' = k
    · subst hk
      rw [insertA, if_pos rfl, allIdsChildren] at h
      rw [allIdsChildren]
      rcases List.mem_append.mp h with h' | h'
      · exact Or.inl h'
      · exact Or.inr (List.mem_append_right _ h')
    · rw [insertA, if_neg hk, allIdsChildren] at h
      rw [allIdsChildren]
      rcases List.mem_append.mp h with h' | h'
      · exact Or.inr (List.mem_append_left _ h')
      · rcases ih h' with h'' | h''
        · exact Or.inl h''
        · exact Or.inr (List.mem_append_right _ h'')

theorem exists_mem_of_mem_allIdsChildren {id : Nat} :
    ∀ {cs : List (String × Node)}, id ∈ allIdsChildren cs → ∃ q ∈ cs, id ∈ q.2.allIds := by
  intro cs
  induction cs with
  | nil => intro h; cases h
  | cons q rest ih =>
    intro h
    rw [allIdsChildren] at h
    rcases List.mem_append.mp h with h3 | h3
    · exact ⟨q, List.mem_cons_self _ _, h3⟩
    · obtain ⟨q', hq', hid'⟩ := ih h3
      exact ⟨q', List.mem_cons_of_mem _ hq', hid'⟩

/-- Ids of the tree after an insertion walk: old ids of the subtree, plus the
new cluster id. -/
theorem addSeqAux_allIds (param : String) (mc maxD : Nat) (store : Lru) (cid tc : Nat) :
    ∀ (tokens : List String) (depth : Nat) (node node' : Node),
      addSeqAux param mc maxD store cid tc tokens depth node = some node' →
      ∀ id ∈ node'.allIds, id ∈ node.allIds ∨ id = cid
  | [], depth, node, node' => by
    intro h
    rw [addSeqAux] at h
    obtain rfl : node = node' := Option.some_inj.mp h
    exact fun id hid => Or.inl hid
  | t :: rest, depth, node, node' => by
    intro h
    rw [addSeqAux] at h
    by_cases hleaf : maxD ≤ depth ∨ tc ≤ depth
    · rw [if_pos hleaf] at h
      cases node with
      | mk cs ids =>
        obtain rfl : Node.mk cs ((ids.filter fun i => store.containsKey i) ++ [cid]) = node' :=
          Option.some_inj.mp h
        intro id hid
        rw [Node.allIds] at hid ⊢
        rcases List.mem_append.mp hid with h' | h'
        · rcases List.mem_append.mp h' with h'' | h''
          · exact Or.inl (List.mem_append_left _ (List.mem_of_mem_filter h''))
          · exact Or.inr (List.mem_singleton.mp h'')
        · exact Or.inl (List.mem_append_right _ h')
    · rw [if_neg hleaf] at h
      cases node with
      | mk cs ids =>
        cases hsel : selectChild param mc (Node.mk cs ids).keyToChildNode t with
        | none =>
          simp only [hsel] at h
          cases h
        | some kc =>
          obtain ⟨key, cs'⟩ := kc
          simp only [hsel] at h
          cases hlk : lookupA cs' key with
          | none =>
            simp only [hlk] at h
            cases h
          | some child =>
            simp only [hlk] at h
            cases hrec : addSeqAux param mc maxD store cid tc rest (depth + 1) child with
            | none =>
              simp only [hrec] at h
              cases h
            | some child' =>
              simp only [hrec, Option.some.injEq] at h
              obtain rfl : Node.mk (insertA cs' key child') ids = node' := h
              intro id hid
              rw [Node.allIds] at hid
              rcases List.mem_append.mp hid with h' | h'
              · exact Or.inl (List.mem_append_left _ h')
              · have hmem_cs' : ∀ q : String × Node, q ∈ cs' → q ∈ cs ∨ q.2 = Node.empty := by
                  intro q hq
                  rcases selectChild_shape hsel with ⟨rfl, _⟩ | rfl
                  · exact Or.inl hq
                  · rcases mem_insertA hq with he | hm
                    · exact Or.inr (congrArg Prod.snd he)
                    · exact Or.inl hm
                rcases mem_allIdsChildren_insertA h' with h'' | h''
                · rcases addSeqAux_allIds param mc maxD store cid tc rest (depth + 1)
                      child child' hrec id h'' with h3 | h3
                  · rcases hmem_cs' (key, child) (lookupA_mem hlk) with hm | hm
                    · exact Or.inl (mem_allIds_of_child hm h3)
                    · rw [show child = Node.empty from hm, allIds_empty] at h3
                      cases h3
                  · exact Or.inr h3
                · obtain ⟨q, hq, hid'⟩ := exists_mem_of_mem_allIdsChildren h''
                  rcases hmem_cs' q hq with hm | hm
                  · obtain ⟨k0, c0⟩ := q
                    exact Or.inl (mem_allIds_of_child hm hid')
                  · rw [hm, allIds_empty] at hid'
                    cases hid'

/-- The insertion walk records the new cluster id somewhere in the subtree:
the walk always reaches its stop condition because the depth counter starts
within the token count (`depth + tokens.length = tc + 1`, `depth ≤ tc`). -/
theorem addSeqAux_cid_mem (param : String) (mc maxD : Nat) (store : Lru) (cid tc : Nat) :
    ∀ (tokens : List String) (depth : Nat) (node node' : Node),
      depth + tokens.length = tc + 1 → depth ≤ tc →
      addSeqAux param mc maxD store cid tc tokens depth node = some node' →
      cid ∈ node'.allIds
  | [], depth, node, node' => by
    intro hlen hd _
    exfalso
    rw [List.length_nil] at hlen
    omega
  | t :: rest, depth, node, node' => by
    intro hlen hd h
    rw [addSeqAux] at h
    by_cases hleaf : maxD ≤ depth ∨ tc ≤ depth
    · rw [if_pos hleaf] at h
      cases node with
      | mk cs ids =>
        obtain rfl : Node.mk cs ((ids.filter fun i => store.containsKey i) ++ [cid]) = node' :=
          Option.some_inj.mp h
        rw [Node.allIds]
        exact List.mem_append_left _
          (List.mem_append_right _ (List.mem_singleton.mpr rfl))
    · rw [if_neg hleaf] at h
      push_neg at hleaf
      cases node with
      | mk cs ids =>
        cases hsel : selectChild param mc (Node.mk cs ids).keyToChildNode t with
        | none =>
          simp only [hsel] at h
          cases h
        | some kc =>
          obtain ⟨key, cs'⟩ := kc
          simp only [hsel] at h
          cases hlk : lookupA cs' key with
          | none =>
            simp only [hlk] at h
            cases h
          | some child =>
            simp only [hlk] at h
            cases hrec : addSeqAux param mc maxD store cid tc rest (depth + 1) child with
            | none =>
              simp only [hrec] at h
              cases h
            | some child' =>
              simp only [hrec, Option.some.injEq] at h
              have hlen' : depth + 1 + rest.length = tc + 1 := by
                rw [List.length_cons] at hlen
                omega
              have hd' : depth + 1 ≤ tc := hleaf.2
              have hcid := addSeqAux_cid_mem param mc maxD store cid tc rest (depth + 1)
                child child' hlen' hd' hrec
              rw [← h]
              exact mem_allIds_of_child (self_mem_insertA cs' key child') hcid

/-- The insertion walk preserves the branching invariant of every node of the
subtree (at most `mc` children; a wildcard child once full), for `mc ≥ 1`. -/
theorem addSeqAux_bounded (param : String) (mc maxD : Nat) (store : Lru) (cid tc : Nat)
    (hmc : 1 ≤ mc) :
    ∀ (tokens : List String) (depth : Nat) (node node' : Node),
      node.boundedB mc param = true →
      addSeqAux param mc maxD store cid tc tokens depth node = some node' →
      node'.boundedB mc param = true
  | [], depth, node, node' => by
    intro hb h
    rw [addSeqAux] at h
    obtain rfl : node = node' := Option.some_inj.mp h
    exact hb
  | t :: rest, depth, node, node' => by
    intro hb h
    rw [addSeqAux] at h
    by_cases hleaf : maxD ≤ depth ∨ tc ≤ depth
    · rw [if_pos hleaf] at h
      cases node with
      | mk cs ids =>
        obtain rfl : Node.mk cs ((ids.filter fun i => store.containsKey i) ++ [cid]) = node' :=
          Option.some_inj.mp h
        rw [Node.boundedB] at hb ⊢
        exact hb
    · rw [if_neg hleaf] at h
      cases node with
      | mk cs ids =>
        rw [Node.boundedB, Bool.and_eq_true, Bool.and_eq_true] at hb
        obtain ⟨⟨ha1, ha2⟩, ha3⟩ := hb
        have hlen : cs.length ≤ mc := of_decide_eq_true ha1
        have hfull : cs.length = mc → containsA cs param = true := by
          intro he
          rcases Bool.or_eq_true .. ▸ ha2 with h' | h'
          · exact absurd he (of_decide_eq_true h')
          · exact h'
        cases hsel : selectChild param mc (Node.mk cs ids).keyToChildNode t with
        | none =>
          simp only [hsel] at h
          cases h
        | some kc =>
          obtain ⟨key, cs'⟩ := kc
          simp only [hsel] at h
          obtain ⟨⟨child0, hlk0, _⟩, hlen', hfull', hmem', _⟩ :=
            selectChild_spec hlen hfull hsel
          cases hlk : lookupA cs' key with
          | none =>
            simp only [hlk] at h
            cases h
          | some child =>
            simp only [hlk] at h
            cases hrec : addSeqAux param mc maxD store cid tc rest (depth + 1) child with
            | none =>
              simp only [hrec] at h
              cases h
            | some child' =>
              simp only [hrec, Option.some.injEq] at h
              have hchild_b : child.boundedB mc param = true := by
                rcases hmem' (key, child) (lookupA_mem hlk) with hm | hm
                · exact boundedChildrenB_mem ha3 hm
                · rw [show child = Node.empty from hm]
                  exact boundedB_empty hmc
              have hchild' : child'.boundedB mc param = true :=
                addSeqAux_bounded param mc maxD store cid tc hmc rest (depth + 1)
                  child child' hchild_b hrec
              rw [← h, Node.boundedB, Bool.and_eq_true, Bool.and_eq_true]
              have hkey : containsA cs' key = true := by
                rw [containsA, hlk]
                rfl
              have hlen'' : (insertA cs' key child').length = cs'.length :=
                length_insertA_of_contains _ hkey
              refine ⟨⟨decide_eq_true (hlen'' ▸ hlen'), ?_⟩, ?_⟩
              · by_cases he : (insertA cs' key child').length = mc
                · have hp' := hfull' (hlen'' ▸ he)
                  rw [Bool.or_eq_true, containsA_insertA, Bool.or_eq_true]
                  exact Or.inr (Or.inl hp')
                · rw [Bool.or_eq_true]
                  exact Or.inl (decide_eq_true he)
              · have hcs'b : boundedChildrenB mc param cs' = true := by
                  rw [boundedChildrenB_iff_forall]
                  intro p hp
                  rcases hmem' p hp with hm | hm
                  · exact boundedChildrenB_mem ha3 hm
                  · rw [hm]
                    exact boundedB_empty hmc
                exact boundedChildrenB_insertA hcs'b key hchild'

/-- The insertion walk keeps the height of the subtree below
`max_node_depth − depth`. -/
theorem addSeqAux_height (param : String) (mc maxD : Nat) (store : Lru) (cid tc : Nat) :
    ∀ (tokens : List String) (depth : Nat) (node node' : Node),
      node.height ≤ maxD - depth →
      addSeqAux param mc maxD store cid tc tokens depth node = some node' →
      node'.height ≤ maxD - depth
  | [], depth, node, node' => by
    intro hh h
    rw [addSeqAux] at h
    obtain rfl : node = node' := Option.some_inj.mp h
    exact hh
  | t :: rest, depth, node, node' => by
    intro hh h
    rw [addSeqAux] at h
    by_cases hleaf : maxD ≤ depth ∨ tc ≤ depth
    · rw [if_pos hleaf] at h
      cases node with
      | mk cs ids =>
        obtain rfl : Node.mk cs ((ids.filter fun i => store.containsKey i) ++ [cid]) = node' :=
          Option.some_inj.mp h
        rw [Node.height] at hh ⊢
        exact hh
    · rw [if_neg hleaf] at h
      push_neg at hleaf
      have hdm : depth < maxD := hleaf.1
      cases node with
      | mk cs ids =>
        rw [Node.height] at hh
        cases hsel : selectChild param mc (Node.mk cs ids).keyToChildNode t with
        | none =>
          simp only [hsel] at h
          cases h
        | some kc =>
          obtain ⟨key, cs'⟩ := kc
          simp only [hsel] at h
          have hmem_cs' : ∀ q : String × Node, q ∈ cs' → q ∈ cs ∨ q.2 = Node.empty := by
            intro q hq
            rcases selectChild_shape hsel with ⟨rfl, _⟩ | rfl
            · exact Or.inl hq
            · rcases mem_insertA hq with he | hm
              · exact Or.inr (congrArg Prod.snd he)
              · exact Or.inl hm
          cases hlk : lookupA cs' key with
          | none =>
            simp only [hlk] at h
            cases h
          | some child =>
            simp only [hlk] at h
            cases hrec : addSeqAux param mc maxD store cid tc rest (depth + 1) child with
            | none =>
              simp only [hrec] at h
              cases h
            | some child' =>
              simp only [hrec, Option.some.injEq] at h
              have hchild_h : child.height ≤ maxD - (depth + 1) := by
                rcases hmem_cs' (key, child) (lookupA_mem hlk) with hm | hm
                · have := height_succ_le_of_mem hm
                  omega
                · rw [show child = Node.empty from hm, height_empty]
                  exact Nat.zero_le _
              have hchild' : child'.height ≤ maxD - (depth + 1) :=
                addSeqAux_height param mc maxD store cid tc rest (depth + 1)
                  child child' hchild_h hrec
              rw [← h, Node.height]
              apply heightChildren_le
              intro p hp
              rcases mem_insertA hp with he | hm
              · have : p.2 = child' := congrArg Prod.snd he
                rw [this]
                omega
              · rcases hmem_cs' p hm with hm' | hm'
                · have := height_succ_le_of_mem hm'
                  omega
                · rw [hm', height_empty]
                  omega

/-! ## Store and search characterization -/

theorem mem_put {s : Lru} {k : Nat} {v : LogCluster} {p : Nat × LogCluster}
    (h : p ∈ (s.put k v).entries) : p = (k, v) ∨ p ∈ s.entries := by
  unfold Lru.put at h
  by_cases hs : (lookupA s.entries k).isSome
  · rw [if_pos hs] at h
    rcases List.mem_cons.mp h with he | hm
    · exact Or.inl he
    · exact Or.inr (removeA_subset _ _ _ hm)
  · rw [if_neg hs] at h
    cases hc : s.cap with
    | none =>
      rw [hc] at h
      simp only at h
      rcases List.mem_cons.mp h with he | hm
      · exact Or.inl he
      · exact Or.inr hm
    | some cp =>
      rw [hc] at h
      simp only at h
      by_cases hl : cp ≤ s.entries.length
      · rw [if_pos hl] at h
        rcases List.mem_cons.mp h with he | hm
        · exact Or.inl he
        · exact Or.inr (List.dropLast_subset _ hm)
      · rw [if_neg hl] at h
        rcases List.mem_cons.mp h with he | hm
        · exact Or.inl he
        · exact Or.inr hm

theorem put_cap (s : Lru) (k : Nat) (v : LogCluster) : (s.put k v).cap = s.cap := by
  unfold Lru.put
  by_cases hs : (lookupA s.entries k).isSome
  · rw [if_pos hs]
  · rw [if_neg hs]
    cases hc : s.cap with
    | none => rfl
    | some cp => by_cases hl : cp ≤ s.entries.length <;> simp [hl]

/-- A successful tree search returns a cluster that is live in the store and
whose id is recorded in the subtree of the token-count bucket. -/
theorem treeSearch_some_spec {d : Drain} {tokens : List String} {th : ℚ} {inc : Bool}
    {store1 : Lru} {mc : LogCluster}
    (h : treeSearch d tokens th inc = some (store1, some mc)) :
    ∃ id, d.idToCluster.lookup id = some mc ∧
      ∃ b, lookupA d.buckets tokens.length = some b ∧ id ∈ b.allIds := by
  cases hb : lookupA d.buckets tokens.length with
  | none =>
    simp only [treeSearch, hb, Option.some.injEq, Prod.mk.injEq] at h
    cases h.2
  | some bucket =>
    by_cases htc : tokens.length = 0
    · rw [htc] at hb
      cases hids : bucket.clusterIds with
      | nil => simp [treeSearch, hb, htc, hids] at h
      | cons i rest =>
        simp only [treeSearch, hb, htc, if_true, hids, Option.some.injEq, Prod.mk.injEq] at h
        have hget := h.2
        unfold Lru.get at hget
        cases hl : lookupA d.idToCluster.entries i with
        | none => rw [hl] at hget; cases hget
        | some v =>
          rw [hl] at hget
          simp only at hget
          obtain rfl : v = mc := Option.some_inj.mp hget
          refine ⟨i, hl, bucket, rfl, ?_⟩
          exact mem_allIds_of_clusterIds (hids ▸ List.mem_cons_self _ _)
    · cases hloop : treeSearchLoop d.paramStr d.maxNodeDepth tokens.length tokens 1 bucket with
      | none =>
        simp only [treeSearch, hb, htc, if_false, hloop, Option.some.injEq,
          Prod.mk.injEq] at h
        cases h.2
      | some leaf =>
        simp only [treeSearch, hb, htc, if_false, hloop, Option.some.injEq] at h
        obtain ⟨sp1, sp2, _⟩ := fastMatchLoop_spec d.paramStr tokens inc leaf.clusterIds
          d.idToCluster (-1) (-1) none
        have hres : (if (fastMatchLoop d.paramStr tokens inc leaf.clusterIds
            d.idToCluster (-1) (-1) none).2.1 ≥ th then
              (fastMatchLoop d.paramStr tokens inc leaf.clusterIds
                d.idToCluster (-1) (-1) none).2.2.2
            else none) = some mc := congrArg Prod.snd h
        by_cases hth : (fastMatchLoop d.paramStr tokens inc leaf.clusterIds
            d.idToCluster (-1) (-1) none).2.1 ≥ th
        · rw [if_pos hth] at hres
          rcases sp2 with ⟨hbest, _, _⟩ | ⟨id, hid, c', hc', hbest, _, _⟩
          · rw [hres] at hbest
            cases hbest
          · rw [hres] at hbest
            obtain rfl : c' = mc := Option.some_inj.mp hbest.symm
            exact ⟨id, hc', bucket, rfl, treeSearchLoop_allIds d.paramStr d.maxNodeDepth
              tokens.length tokens 1 bucket leaf hloop id hid⟩
        · rw [if_neg hth] at hres
          cases hres

theorem head?_mem {l : List Nat} {i : Nat} (h : l.head? = some i) : i ∈ l := by
  cases l with
  | nil => cases h
  | cons x rest =>
    rw [List.head?_cons] at h
    exact (Option.some_inj.mp h) ▸ List.mem_cons_self _ _

theorem createTemplate_length (param : String) (seq1 seq2 : List String) :
    (createTemplate param seq1 seq2).length = min seq1.length seq2.length := by
  unfold createTemplate
  rw [List.length_map, List.length_zip]

/-! ## The reachable-state invariant -/

/-- Invariants of every engine state reachable by `train` from a fresh
engine: stored values carry their own key and no key exceeds the counter;
every id recorded in a count bucket's subtree is within the counter and, if
live, maps to a cluster whose template length is the bucket's token count;
every bucket subtree keeps the branching invariant (when `max_children ≥ 1`)
and the depth bound; and the zero-token bucket always has a non-empty id
list whose head is live while the store is unbounded. -/
structure DrainInv (d : Drain) : Prop where
  storeIds : ∀ p ∈ d.idToCluster.entries, p.2.clusterId = p.1 ∧ p.1 ≤ d.clusterCounter
  bucketIds : ∀ p ∈ d.buckets, ∀ id ∈ p.2.allIds,
    id ≤ d.clusterCounter ∧
      ∀ v, d.idToCluster.lookup id = some v → v.logTemplateTokens.length = p.1
  bounded : 1 ≤ d.maxChildren →
    ∀ p ∈ d.buckets, p.2.boundedB d.maxChildren d.paramStr = true
  heightLe : ∀ p ∈ d.buckets, p.2.height ≤ d.maxNodeDepth - 1
  bucket0 : ∀ b0, lookupA d.buckets 0 = some b0 →
    b0.clusterIds ≠ [] ∧
      (d.idToCluster.cap = none →
        ∀ i, b0.clusterIds.head? = some i → (d.idToCluster.lookup i).isSome = true)

theorem drainInv_init (cap : Option Nat) (maxD : Nat) (th : ℚ) (mc : Nat)
    (param : String) : DrainInv (Drain.init cap maxD th mc param) := by
  refine ⟨?_, ?_, ?_, ?_, ?_⟩
  · intro p hp
    cases hp
  · intro p hp
    cases hp
  · intro _ p hp
    cases hp
  · intro p hp
    cases hp
  · intro b0 h
    cases h

theorem drainInv_default : DrainInv Drain.default := by
  refine ⟨?_, ?_, ?_, ?_, ?_⟩
  · intro p hp
    cases hp
  · intro p hp
    cases hp
  · intro _ p hp
    cases hp
  · intro p hp
    cases hp
  · intro b0 h
    cases h

/-- Invariant preservation by a matching `train` step. -/
theorem drainInv_matched {d : Drain} {tokens : List String} {store1 : Lru} {mc : LogCluster}
    (hinv : DrainInv d)
    (hts : treeSearch d tokens d.simTh false = some (store1, some mc)) :
    DrainInv { d with
      idToCluster := store1.put mc.clusterId
        ⟨createTemplate d.paramStr tokens mc.logTemplateTokens, mc.clusterId,
          mc.size + 1⟩ } := by
  obtain ⟨id0, hid0, b0, hb0, hmem0⟩ := treeSearch_some_spec hts
  have hsim := treeSearch_lruSim hts
  have hididx := hinv.storeIds _ (lookupA_mem hid0)
  have hkey : mc.clusterId = id0 := hididx.1
  have hlen_mc : mc.logTemplateTokens.length = tokens.length :=
    (hinv.bucketIds _ (lookupA_mem hb0) id0 hmem0).2 mc hid0
  have hpresent : (lookupA store1.entries mc.clusterId).isSome = true := by
    have h1 := hsim.2.1 mc.clusterId
    unfold Lru.lookup at h1
    rw [h1, hkey]
    unfold Lru.lookup at hid0
    rw [hid0]
    rfl
  refine ⟨?_, ?_, ?_, ?_, ?_⟩
  · intro p hp
    rcases mem_put hp with he | hm
    · rw [he]
      exact ⟨rfl, hkey ▸ hididx.2⟩
    · exact hinv.storeIds p (hsim.2.2.1 p hm)
  · intro p hp id hid
    refine ⟨(hinv.bucketIds p hp id hid).1, ?_⟩
    intro v hv
    by_cases hidk : id = mc.clusterId
    · subst hidk
      rw [lookup_put_self] at hv
      obtain rfl := Option.some_inj.mp hv.symm
      have hlenp : mc.logTemplateTokens.length = p.1 :=
        (hinv.bucketIds p hp mc.clusterId hid).2 mc (hkey ▸ hid0)
      show (createTemplate d.paramStr tokens mc.logTemplateTokens).length = p.1
      rw [createTemplate_length]
      omega
    · rw [lookup_put_ne_of_present id hidk hpresent, hsim.2.1 id] at hv
      exact (hinv.bucketIds p hp id hid).2 v hv
  · intro hmc p hp
    exact hinv.bounded hmc p hp
  · intro p hp
    exact hinv.heightLe p hp
  · intro b0' hb0'
    obtain ⟨hne, hlive⟩ := hinv.bucket0 b0' hb0'
    refine ⟨hne, ?_⟩
    intro hcap i hh
    have hcap1 : store1.cap = none := by
      have := put_cap store1 mc.clusterId
        ⟨createTemplate d.paramStr tokens mc.logTemplateTokens, mc.clusterId, mc.size + 1⟩
      rw [this] at hcap
      exact hcap
    have hcapd : d.idToCluster.cap = none := hsim.1 ▸ hcap1
    have hold := hlive hcapd i hh
    have h1 : (store1.lookup i).isSome = true := (hsim.2.1 i).symm ▸ hold
    exact lookup_put_isSome_unbounded hcap1 h1 _ _

theorem mem_allIds_of_children {n : Node} {id : Nat}
    (h : id ∈ allIdsChildren n.keyToChildNode) : id ∈ n.allIds := by
  cases n with
  | mk cs ids =>
    rw [Node.allIds]
    exact List.mem_append_right _ h

theorem boundedB_mk_ids (mc : Nat) (param : String) (cs : List (String × Node))
    (ids ids' : List Nat) :
    (Node.mk cs ids).boundedB mc param = (Node.mk cs ids').boundedB mc param := by
  rw [Node.boundedB, Node.boundedB]

theorem height_mk_ids (cs : List (String × Node)) (ids ids' : List Nat) :
    (Node.mk cs ids).height = (Node.mk cs ids').height := by
  rw [Node.height, Node.height]

/-- Invariant preservation by a cluster-creating `train` step. -/
theorem drainInv_miss {d : Drain} {tokens : List String} {store1 : Lru}
    {buckets' : List (Nat × Node)}
    (hinv : DrainInv d)
    (hsim : LruSim d.idToCluster store1)
    (hadd : addSeqToPrefixTree d.paramStr d.maxChildren d.maxNodeDepth
      (store1.put (d.clusterCounter + 1) ⟨tokens, d.clusterCounter + 1, 1⟩)
      ⟨tokens, d.clusterCounter + 1, 1⟩ d.buckets = some buckets') :
    DrainInv { d with
      idToCluster := store1.put (d.clusterCounter + 1) ⟨tokens, d.clusterCounter + 1, 1⟩,
      clusterCounter := d.clusterCounter + 1,
      buckets := buckets' } := by
  have hfresh : lookupA store1.entries (d.clusterCounter + 1) = none := by
    cases hl : lookupA store1.entries (d.clusterCounter + 1) with
    | none => rfl
    | some v =>
      have hm : (d.clusterCounter + 1, v) ∈ d.idToCluster.entries :=
        hsim.2.2.1 _ (lookupA_mem hl)
      have := (hinv.storeIds _ hm).2
      omega
  have hlk2_self : (store1.put (d.clusterCounter + 1)
      ⟨tokens, d.clusterCounter + 1, 1⟩).lookup (d.clusterCounter + 1) =
      some ⟨tokens, d.clusterCounter + 1, 1⟩ := lookup_put_self _ _ _
  have hlk2_ne : ∀ id, id ≠ d.clusterCounter + 1 → ∀ v,
      (store1.put (d.clusterCounter + 1)
        ⟨tokens, d.clusterCounter + 1, 1⟩).lookup id = some v →
      d.idToCluster.lookup id = some v := by
    intro id hne v hv
    have := lookup_put_ne_of_some hne hv
    rw [hsim.2.1 id] at this
    exact this
  have hstore : ∀ p ∈ (store1.put (d.clusterCounter + 1)
      ⟨tokens, d.clusterCounter + 1, 1⟩).entries,
      p.2.clusterId = p.1 ∧ p.1 ≤ d.clusterCounter + 1 := by
    intro p hp
    rcases mem_put hp with he | hm
    · rw [he]
      exact ⟨rfl, le_refl _⟩
    · have := hinv.storeIds p (hsim.2.2.1 p hm)
      exact ⟨this.1, by omega⟩
  have hlive2 : d.idToCluster.cap = none → ∀ j, (d.idToCluster.lookup j).isSome = true →
      ((store1.put (d.clusterCounter + 1)
        ⟨tokens, d.clusterCounter + 1, 1⟩).lookup j).isSome = true := by
    intro hcapd j hj
    have h1 : (store1.lookup j).isSome = true := (hsim.2.1 j).symm ▸ hj
    have hc1 : store1.cap = none := hsim.1.trans hcapd
    exact lookup_put_isSome_unbounded hc1 h1 _ _
  have hcap2 : (store1.put (d.clusterCounter + 1)
      ⟨tokens, d.clusterCounter + 1, 1⟩).cap = none → d.idToCluster.cap = none := by
    intro h
    rw [put_cap, hsim.1] at h
    exact h
  unfold addSeqToPrefixTree at hadd
  by_cases htc : tokens.length = 0
  · simp only [htc, eq_self_iff_true, if_true, Option.some.injEq] at hadd
    subst hadd
    refine ⟨hstore, ?_, ?_, ?_, ?_⟩
    · intro p hp id hid
      rcases mem_insertA hp with he | hm
      · subst he
        rw [Node.allIds] at hid
        have hid' : id = d.clusterCounter + 1 ∨
            id ∈ ((lookupA d.buckets 0).getD Node.empty).allIds := by
          rcases List.mem_append.mp hid with h1 | h1
          · rcases List.mem_append.mp h1 with h2 | h2
            · exact Or.inr (mem_allIds_of_clusterIds h2)
            · exact Or.inl (List.mem_singleton.mp h2)
          · exact Or.inr (mem_allIds_of_children h1)
        rcases hid' with rfl | hB
        · refine ⟨le_refl _, ?_⟩
          intro v hv
          rw [hlk2_self] at hv
          obtain rfl := Option.some_inj.mp hv.symm
          exact htc
        · cases hlb : lookupA d.buckets 0 with
          | none =>
            rw [hlb] at hB
            cases hB
          | some b =>
            rw [hlb] at hB
            have hold := hinv.bucketIds (0, b) (lookupA_mem hlb) id hB
            refine ⟨?_, ?_⟩
            · show id ≤ d.clusterCounter + 1
              omega
            intro v hv
            have hne : id ≠ d.clusterCounter + 1 := by
              have := hold.1
              omega
            exact hold.2 v (hlk2_ne id hne v hv)
      · have hold := hinv.bucketIds p hm id hid
        refine ⟨?_, ?_⟩
        · show id ≤ d.clusterCounter + 1
          omega
        intro v hv
        have hne : id ≠ d.clusterCounter + 1 := by
          have := hold.1
          omega
        exact hold.2 v (hlk2_ne id hne v hv)
    · intro hmc p hp
      rcases mem_insertA hp with he | hm
      · subst he
        show (Node.mk ((lookupA d.buckets 0).getD Node.empty).keyToChildNode
          (((lookupA d.buckets 0).getD Node.empty).clusterIds ++
            [d.clusterCounter + 1])).boundedB d.maxChildren d.paramStr = true
        cases hlb : lookupA d.buckets 0 with
        | none =>
          rw [boundedB_mk_ids _ _ _ _ []]
          exact boundedB_empty hmc
        | some b =>
          cases b with
          | mk bcs bids =>
            simp only [Option.getD_some, Node.keyToChildNode, Node.clusterIds]
            rw [boundedB_mk_ids _ _ _ _ bids]
            exact hinv.bounded hmc (0, Node.mk bcs bids) (lookupA_mem hlb)
      · exact hinv.bounded hmc p hm
    · intro p hp
      rcases mem_insertA hp with he | hm
      · subst he
        show (Node.mk ((lookupA d.buckets 0).getD Node.empty).keyToChildNode
          (((lookupA d.buckets 0).getD Node.empty).clusterIds ++
            [d.clusterCounter + 1])).height ≤ d.maxNodeDepth - 1
        cases hlb : lookupA d.buckets 0 with
        | none =>
          rw [height_mk_ids _ _ []]
          exact Nat.zero_le _
        | some b =>
          cases b with
          | mk bcs bids =>
            simp only [Option.getD_some, Node.keyToChildNode, Node.clusterIds]
            rw [height_mk_ids _ _ bids]
            exact hinv.heightLe (0, Node.mk bcs bids) (lookupA_mem hlb)
      · exact hinv.heightLe p hm
    · intro b0' hb0'
      rw [lookupA_insertA_self] at hb0'
      obtain rfl := Option.some_inj.mp hb0'.symm
      constructor
      · rw [Node.clusterIds]
        simp
      · intro hcap i hh
        rw [Node.clusterIds] at hh
        cases hlb : lookupA d.buckets 0 with
        | none =>
          rw [hlb] at hh
          simp only [Option.getD_none, Node.empty, Node.clusterIds, List.nil_append,
            List.head?_cons] at hh
          obtain rfl := Option.some_inj.mp hh.symm
          rw [hlk2_self]
          rfl
        | some b =>
          rw [hlb] at hh
          simp only [Option.getD_some] at hh
          obtain ⟨hne, hliveold⟩ := hinv.bucket0 b hlb
          cases hbids : b.clusterIds with
          | nil => exact absurd hbids hne
          | cons j rest =>
            rw [hbids] at hh
            simp only [List.cons_append, List.head?_cons] at hh
            obtain rfl := Option.some_inj.mp hh.symm
            have hcapd := hcap2 hcap
            exact hlive2 hcapd i (hliveold hcapd i (by rw [hbids, List.head?_cons]))
  · simp only [htc, if_false] at hadd
    cases haux : addSeqAux d.paramStr d.maxChildren d.maxNodeDepth
        (store1.put (d.clusterCounter + 1) ⟨tokens, d.clusterCounter + 1, 1⟩)
        (d.clusterCounter + 1) tokens.length tokens 1
        ((lookupA d.buckets tokens.length).getD Node.empty) with
    | none =>
      rw [haux] at hadd
      cases hadd
    | some b' =>
      rw [haux] at hadd
      simp only [Option.some.injEq] at hadd
      subst hadd
      refine ⟨hstore, ?_, ?_, ?_, ?_⟩
      · intro p hp id hid
        rcases mem_insertA hp with he | hm
        · subst he
          rcases addSeqAux_allIds _ _ _ _ _ _ _ _ _ _ haux id hid with hB | rfl
          · cases hlb : lookupA d.buckets tokens.length with
            | none =>
              rw [hlb] at hB
              cases hB
            | some b =>
              rw [hlb] at hB
              have hold := hinv.bucketIds (tokens.length, b) (lookupA_mem hlb) id hB
              refine ⟨?_, ?_⟩
              · show id ≤ d.clusterCounter + 1
                omega
              intro v hv
              have hne : id ≠ d.clusterCounter + 1 := by
                have := hold.1
                omega
              exact hold.2 v (hlk2_ne id hne v hv)
          · refine ⟨le_refl _, ?_⟩
            intro v hv
            rw [hlk2_self] at hv
            obtain rfl := Option.some_inj.mp hv.symm
            rfl
        · have hold := hinv.bucketIds p hm id hid
          refine ⟨?_, ?_⟩
          · show id ≤ d.clusterCounter + 1
            omega
          intro v hv
          have hne : id ≠ d.clusterCounter + 1 := by
            have := hold.1
            omega
          exact hold.2 v (hlk2_ne id hne v hv)
      · intro hmc p hp
        rcases mem_insertA hp with he | hm
        · subst he
          show b'.boundedB d.maxChildren d.paramStr = true
          refine addSeqAux_bounded _ _ _ _ _ _ hmc _ _ _ _ ?_ haux
          cases hlb : lookupA d.buckets tokens.length with
          | none => exact boundedB_empty hmc
          | some b => exact hinv.bounded hmc (tokens.length, b) (lookupA_mem hlb)
        · exact hinv.bounded hmc p hm
      · intro p hp
        rcases mem_insertA hp with he | hm
        · subst he
          show b'.height ≤ d.maxNodeDepth - 1
          refine addSeqAux_height _ _ _ _ _ _ _ _ _ _ ?_ haux
          cases hlb : lookupA d.buckets tokens.length with
          | none => exact Nat.zero_le _
          | some b => exact hinv.heightLe (tokens.length, b) (lookupA_mem hlb)
        · exact hinv.heightLe p hm
      · intro b0' hb0'
        rw [lookupA_insertA_ne _ _ _ _ (fun h => htc h.symm)] at hb0'
        obtain ⟨hne, hliveold⟩ := hinv.bucket0 b0' hb0'
        refine ⟨hne, ?_⟩
        intro hcap i hh
        have hcapd := hcap2 hcap
        exact hlive2 hcapd i (hliveold hcapd i hh)

/-- One `train` step preserves the reachable-state invariant. -/
theorem trainPreservesInv {d : Drain} {m : String} {c : LogCluster} {d' : Drain}
    (hinv : DrainInv d) (h : train d m = some (c, d')) : DrainInv d' := by
  cases hts : treeSearch d (tokenize m) d.simTh false with
  | none =>
    simp only [train, hts] at h
    cases h
  | some pr =>
    obtain ⟨store1, res⟩ := pr
    cases res with
    | some mc =>
      simp only [train, hts, Option.some.injEq, Prod.mk.injEq] at h
      obtain ⟨_, rfl⟩ := h
      exact drainInv_matched hinv hts
    | none =>
      cases hadd : addSeqToPrefixTree d.paramStr d.maxChildren d.maxNodeDepth
          (store1.put (d.clusterCounter + 1)
            ⟨tokenize m, d.clusterCounter + 1, 1⟩)
          ⟨tokenize m, d.clusterCounter + 1, 1⟩ d.buckets with
      | none =>
        simp only [train, hts, hadd] at h
        cases h
      | some buckets' =>
        simp only [train, hts, hadd, Option.some.injEq, Prod.mk.injEq] at h
        obtain ⟨_, rfl⟩ := h
        exact drainInv_miss hinv (treeSearch_lruSim hts) hadd

/-- `train` never changes the engine configuration, never lowers the id
counter, and never changes the store's capacity. -/
theorem train_config {d : Drain} {m : String} {c : LogCluster} {d' : Drain}
    (h : train d m = some (c, d')) :
    d'.maxNodeDepth = d.maxNodeDepth ∧ d'.maxChildren = d.maxChildren ∧
      d'.paramStr = d.paramStr ∧ d'.simTh = d.simTh ∧
      d'.idToCluster.cap = d.idToCluster.cap ∧
      d.clusterCounter ≤ d'.clusterCounter := by
  cases hts : treeSearch d (tokenize m) d.simTh false with
  | none =>
    simp only [train, hts] at h
    cases h
  | some pr =>
    obtain ⟨store1, res⟩ := pr
    have hsim := treeSearch_lruSim hts
    cases res with
    | some mc =>
      simp only [train, hts, Option.some.injEq, Prod.mk.injEq] at h
      obtain ⟨_, rfl⟩ := h
      refine ⟨rfl, rfl, rfl, rfl, ?_, le_refl _⟩
      show (store1.put _ _).cap = d.idToCluster.cap
      rw [put_cap]
      exact hsim.1
    | none =>
      cases hadd : addSeqToPrefixTree d.paramStr d.maxChildren d.maxNodeDepth
          (store1.put (d.clusterCounter + 1)
            ⟨tokenize m, d.clusterCounter + 1, 1⟩)
          ⟨tokenize m, d.clusterCounter + 1, 1⟩ d.buckets with
      | none =>
        simp only [train, hts, hadd] at h
        cases h
      | some buckets' =>
        simp only [train, hts, hadd, Option.some.injEq, Prod.mk.injEq] at h
        obtain ⟨_, rfl⟩ := h
        refine ⟨rfl, rfl, rfl, rfl, ?_, ?_⟩
        swap
        · show d.clusterCounter ≤ d.clusterCounter + 1
          omega
        show (store1.put _ _).cap = d.idToCluster.cap
        rw [put_cap]
        exact hsim.1

/-- `trainAll` preserves the invariant. -/
theorem trainAll_inv {d0 : Drain} (hinv : DrainInv d0) :
    ∀ (msgs : List String) (d : Drain), trainAll d0 msgs = some d → DrainInv d := by
  intro msgs
  induction msgs generalizing d0 with
  | nil =>
    intro d h
    rw [trainAll] at h
    exact (Option.some_inj.mp h) ▸ hinv
  | cons msg rest ih =>
    intro d h
    rw [trainAll] at h
    cases htr : train d0 msg with
    | none => rw [htr] at h; cases h
    | some pr =>
      obtain ⟨c, d1⟩ := pr
      rw [htr] at h
      exact ih (trainPreservesInv hinv htr) d h

/-- `trainAll` preserves the configuration and the store capacity. -/
theorem trainAll_config {d0 : Drain} :
    ∀ (msgs : List String) (d : Drain), trainAll d0 msgs = some d →
      d.maxNodeDepth = d0.maxNodeDepth ∧ d.maxChildren = d0.maxChildren ∧
        d.paramStr = d0.paramStr ∧ d.simTh = d0.simTh ∧
        d.idToCluster.cap = d0.idToCluster.cap := by
  intro msgs
  induction msgs generalizing d0 with
  | nil =>
    intro d h
    rw [trainAll] at h
    obtain rfl := Option.some_inj.mp h
    exact ⟨rfl, rfl, rfl, rfl, rfl⟩
  | cons msg rest ih =>
    intro d h
    rw [trainAll] at h
    cases htr : train d0 msg with
    | none => rw [htr] at h; cases h
    | some pr =>
      obtain ⟨c, d1⟩ := pr
      rw [htr] at h
      obtain ⟨e1, e2, e3, e4, e5, _⟩ := train_config htr
      obtain ⟨f1, f2, f3, f4, f5⟩ := ih d h
      exact ⟨f1.trans e1, f2.trans e2, f3.trans e3, f4.trans e4, f5.trans e5⟩

theorem sumSizes_eq (d : Drain) :
    sumSizes d = (d.idToCluster.entries.map fun p => p.2.size).sum := by
  unfold sumSizes Drain.clusters
  rw [List.map_map]
  rfl

/-- On an unbounded store, one `train` step adds exactly one to the total
cluster size: a match bumps one stored size, a miss adds a size-1 cluster. -/
theorem train_sum {d : Drain} {m : String} {c : LogCluster} {d' : Drain}
    (hinv : DrainInv d) (hcap : d.idToCluster.cap = none)
    (h : train d m = some (c, d')) : sumSizes d' = sumSizes d + 1 := by
  cases hts : treeSearch d (tokenize m) d.simTh false with
  | none =>
    simp only [train, hts] at h
    cases h
  | some pr =>
    obtain ⟨store1, res⟩ := pr
    have hsim := treeSearch_lruSim hts
    have hsum1 : (store1.entries.map fun p => p.2.size).sum =
        (d.idToCluster.entries.map fun p => p.2.size).sum := hsim.2.2.2.2
    cases res with
    | some mc =>
      simp only [train, hts, Option.some.injEq, Prod.mk.injEq] at h
      obtain ⟨_, rfl⟩ := h
      obtain ⟨id0, hid0, _, _, _⟩ := treeSearch_some_spec hts
      have hkey : mc.clusterId = id0 := (hinv.storeIds _ (lookupA_mem hid0)).1
      have hlk1 : lookupA store1.entries mc.clusterId = some mc := by
        have h1 := hsim.2.1 mc.clusterId
        unfold Lru.lookup at h1
        rw [h1, hkey]
        exact hid0
      have hpres : (lookupA store1.entries mc.clusterId).isSome = true := by
        rw [hlk1]
        rfl
      have hrem : mc.size +
          ((removeA store1.entries mc.clusterId).map fun p => p.2.size).sum =
          (store1.entries.map fun p => p.2.size).sum :=
        removeA_map_sum (fun p => p.2.size) hlk1
      rw [sumSizes_eq, sumSizes_eq]
      show ((store1.put mc.clusterId _).entries.map fun p => p.2.size).sum =
        (d.idToCluster.entries.map fun p => p.2.size).sum + 1
      unfold Lru.put
      rw [if_pos hpres, List.map_cons, List.sum_cons]
      show mc.size + 1 +
        ((removeA store1.entries mc.clusterId).map fun p => p.2.size).sum =
        (d.idToCluster.entries.map fun p => p.2.size).sum + 1
      omega
    | none =>
      cases hadd : addSeqToPrefixTree d.paramStr d.maxChildren d.maxNodeDepth
          (store1.put (d.clusterCounter + 1)
            ⟨tokenize m, d.clusterCounter + 1, 1⟩)
          ⟨tokenize m, d.clusterCounter + 1, 1⟩ d.buckets with
      | none =>
        simp only [train, hts, hadd] at h
        cases h
      | some buckets' =>
        simp only [train, hts, hadd, Option.some.injEq, Prod.mk.injEq] at h
        obtain ⟨_, rfl⟩ := h
        have hfresh : (lookupA store1.entries (d.clusterCounter + 1)).isSome = false := by
          cases hl : lookupA store1.entries (d.clusterCounter + 1) with
          | none => rfl
          | some v =>
            have hm : (d.clusterCounter + 1, v) ∈ d.idToCluster.entries :=
              hsim.2.2.1 _ (lookupA_mem hl)
            have := (hinv.storeIds _ hm).2
            omega
        have hcap1 : store1.cap = none := hsim.1.trans hcap
        rw [sumSizes_eq, sumSizes_eq]
        show ((store1.put (d.clusterCounter + 1) _).entries.map fun p => p.2.size).sum =
          (d.idToCluster.entries.map fun p => p.2.size).sum + 1
        unfold Lru.put
        rw [if_neg (by rw [hfresh]; exact Bool.false_ne_true), hcap1, List.map_cons,
          List.sum_cons]
        show 1 + (store1.entries.map fun p => p.2.size).sum =
          (d.idToCluster.entries.map fun p => p.2.size).sum + 1
        omega

/-- Iterated version of `train_sum`. -/
theorem trainAll_sum {d0 : Drain} (hinv : DrainInv d0) (hcap : d0.idToCluster.cap = none) :
    ∀ (msgs : List String) (d : Drain), trainAll d0 msgs = some d →
      sumSizes d = sumSizes d0 + msgs.length := by
  intro msgs
  induction msgs generalizing d0 with
  | nil =>
    intro d h
    rw [trainAll] at h
    obtain rfl := Option.some_inj.mp h
    simp
  | cons msg rest ih =>
    intro d h
    rw [trainAll] at h
    cases htr : train d0 msg with
    | none => rw [htr] at h; cases h
    | some pr =>
      obtain ⟨c, d1⟩ := pr
      rw [htr] at h
      have hstep := train_sum hinv hcap htr
      have hinv1 := trainPreservesInv hinv htr
      have hcap1 : d1.idToCluster.cap = none := (train_config htr).2.2.2.2.1.trans hcap
      have := ih hinv1 hcap1 d h
      rw [this, hstep, List.length_cons]
      omega

/-- C4, counterexample.  The claim covers every freshly constructed engine,
including capacity-bounded ones (`max_clusters = Some n`).  With capacity 1,
two successful `train` calls on lines of different token counts leave a
single size-1 cluster: the second miss's `put` on the full store evicts the
first cluster together with its counted size, so the sizes sum to 1, not 2. -/
theorem c4_size_conservation_counterexample :
    (trainAll (Drain.init (some 1) 2 ((2 : ℚ) / 5) 100 "<*>") ["a", "b c"]).isSome = true ∧
    sumSizes ((trainAll (Drain.init (some 1) 2 ((2 : ℚ) / 5) 100 "<*>") ["a", "b c"]).getD
      Drain.default) ≠ 2 := by
  refine ⟨by decide, by decide⟩

/-- C4 (amended): starting from a freshly constructed engine whose store is
unbounded (`max_clusters = None`), for any configuration, after `N`
successful `train` calls the sum of the sizes of all clusters returned by
`clusters()` equals `N`.  With a bounded store a `put` at capacity evicts a
cluster and its size is lost, so the restriction is necessary. -/
theorem c4_size_conservation (maxD : Nat) (th : ℚ) (mc : Nat) (param : String)
    (msgs : List String) (d : Drain)
    (h : trainAll (Drain.init none maxD th mc param) msgs = some d) :
    sumSizes d = msgs.length := by
  have hsum := trainAll_sum (drainInv_init none maxD th mc param) rfl msgs d h
  rw [hsum]
  show 0 + msgs.length = msgs.length
  omega

/-- Witness for C4: training an unbounded fresh engine on two lines of
distinct shapes leaves clusters whose sizes sum to 2. -/
theorem c4_size_conservation_witness :
    sumSizes ((trainAll (Drain.init none 2 ((2 : ℚ) / 5) 100 "<*>") ["a b", "c"]).getD
      Drain.default) = 2 :=
  c4_size_conservation 2 ((2 : ℚ) / 5) 100 "<*>" ["a b", "c"]
    ((trainAll (Drain.init none 2 ((2 : ℚ) / 5) 100 "<*>") ["a b", "c"]).getD
      Drain.default) rfl

mutual

theorem boundedB_imp_childBound {mc : Nat} {param : String} :
    ∀ n : Node, n.boundedB mc param = true → n.childBoundB mc = true
  | .mk cs ids => by
    intro h
    rw [Node.boundedB, Bool.and_eq_true, Bool.and_eq_true] at h
    rw [Node.childBoundB, Bool.and_eq_true]
    exact ⟨h.1.1, boundedChildren_imp_childBound cs h.2⟩

theorem boundedChildren_imp_childBound {mc : Nat} {param : String} :
    ∀ cs : List (String × Node), boundedChildrenB mc param cs = true →
      childBoundChildrenB mc cs = true
  | [] => fun _ => rfl
  | (k, c) :: rest => by
    intro h
    rw [boundedChildrenB, Bool.and_eq_true] at h
    rw [childBoundChildrenB, Bool.and_eq_true]
    exact ⟨boundedB_imp_childBound c h.1, boundedChildren_imp_childBound rest h.2⟩

end

/-- C5, counterexample.  The claim includes the root and all values of
`max_children`; neither holds of the code.  First run: `max_children = 1`,
two lines of different token counts make the root grow two count-bucket
children — the root's children are created by `entry().or_insert` with no
cap.  Second run: `max_children = 0`, the digit-bearing token `"5"` routes
through a wildcard child that is created with no cap check, so the bucket
node of count 3 holds one child, exceeding `max_children`. -/
theorem c5_bounded_branching_counterexample :
    (((trainAll (Drain.init none 2 ((2 : ℚ) / 5) 1 "<*>") ["a", "b c"]).getD
        Drain.default).maxChildren <
      ((trainAll (Drain.init none 2 ((2 : ℚ) / 5) 1 "<*>") ["a", "b c"]).getD
        Drain.default).buckets.length) ∧
    (trainAll (Drain.init none 2 ((2 : ℚ) / 5) 1 "<*>") ["a", "b c"]).isSome = true ∧
    (((trainAll (Drain.init none 2 ((2 : ℚ) / 5) 0 "<*>") ["5 a b"]).getD
        Drain.default).maxChildren <
      ((lookupA ((trainAll (Drain.init none 2 ((2 : ℚ) / 5) 0 "<*>") ["5 a b"]).getD
          Drain.default).buckets 3).getD Node.empty).keyToChildNode.length) ∧
    (trainAll (Drain.init none 2 ((2 : ℚ) / 5) 0 "<*>") ["5 a b"]).isSome = true := by
  refine ⟨by decide, by decide, by decide, by decide⟩

/-- C5 (amended): in every engine state reachable by `train` calls from a
fresh engine with `max_children ≥ 1`, every node of every count-bucket
subtree — that is, every tree node except the root, whose children are the
count buckets and are created without a cap — has at most `max_children`
distinct child keys.  (With `max_children = 0` a digit token still creates
a wildcard child, so the bound needs `max_children ≥ 1`.) -/
theorem c5_bounded_branching (cap : Option Nat) (maxD : Nat) (th : ℚ) (mc : Nat)
    (param : String) (msgs : List String) (d : Drain)
    (hmc : 1 ≤ mc)
    (h : trainAll (Drain.init cap maxD th mc param) msgs = some d) :
    (d.buckets.all fun p => p.2.childBoundB mc) = true := by
  have hinv := trainAll_inv (drainInv_init cap maxD th mc param) msgs d h
  have hcfg := trainAll_config msgs d h
  rw [List.all_eq_true]
  intro p hp
  have hb := hinv.bounded (by rw [hcfg.2.1]; exact hmc) p hp
  rw [hcfg.2.1] at hb
  exact boundedB_imp_childBound _ hb

/-- Witness for C5: after training two lines, every non-root node of the
engine with `max_children = 2` respects the bound. -/
theorem c5_bounded_branching_witness :
    ((((trainAll (Drain.init none 2 ((2 : ℚ) / 5) 2 "<*>") ["a", "b c"]).getD
        Drain.default).buckets.all fun p => p.2.childBoundB 2) = true) :=
  c5_bounded_branching none 2 ((2 : ℚ) / 5) 2 "<*>" ["a", "b c"]
    ((trainAll (Drain.init none 2 ((2 : ℚ) / 5) 2 "<*>") ["a", "b c"]).getD
      Drain.default) (by omega) rfl

/-- C9: the prefix tree below every count bucket keeps height at most
`max_node_depth` in every reachable state (the code in fact keeps it at
`max_node_depth − 1`).  The search descent follows existing edges only and
the insertion walk's created nodes are nodes of the resulting tree, so
neither ever visits or creates a node more than `max_node_depth` levels
below the count-bucket node. -/
theorem c9_bounded_depth (cap : Option Nat) (maxD : Nat) (th : ℚ) (mc : Nat)
    (param : String) (msgs : List String) (d : Drain)
    (h : trainAll (Drain.init cap maxD th mc param) msgs = some d) :
    (d.buckets.all fun p => decide (p.2.height ≤ maxD)) = true := by
  have hinv := trainAll_inv (drainInv_init cap maxD th mc param) msgs d h
  have hcfg := trainAll_config msgs d h
  rw [List.all_eq_true]
  intro p hp
  have hh := hinv.heightLe p hp
  rw [hcfg.1] at hh
  have hh2 : p.2.height ≤ maxD - 1 := hh
  exact decide_eq_true (by omega)

/-- Witness for C9: the tree built from one three-token line stays within
depth 2 below its count bucket. -/
theorem c9_bounded_depth_witness :
    ((((trainAll (Drain.init none 2 ((2 : ℚ) / 5) 100 "<*>") ["a b c"]).getD
        Drain.default).buckets.all fun p => decide (p.2.height ≤ 2)) = true) :=
  c9_bounded_depth none 2 ((2 : ℚ) / 5) 100 "<*>" ["a b c"]
    ((trainAll (Drain.init none 2 ((2 : ℚ) / 5) 100 "<*>") ["a b c"]).getD
      Drain.default) rfl

/-- On a state satisfying the invariant with an unbounded store, training a
zero-token line never panics: the `cluster_ids[0]` access of the degenerate
bucket is in bounds and its id is live. -/
theorem train_zero_tokens_isSome {d : Drain} (hinv : DrainInv d)
    (hcap : d.idToCluster.cap = none) : (train d "").isSome = true := by
  have htok : tokenize "" = ([] : List String) := rfl
  cases hb0 : lookupA d.buckets 0 with
  | none =>
    have hb0' : lookupA d.buckets ([] : List String).length = none := hb0
    have hts : treeSearch d [] d.simTh false = some (d.idToCluster, none) := by
      simp only [treeSearch, hb0']
    have hadd : (addSeqToPrefixTree d.paramStr d.maxChildren d.maxNodeDepth
        (d.idToCluster.put (d.clusterCounter + 1) ⟨[], d.clusterCounter + 1, 1⟩)
        ⟨[], d.clusterCounter + 1, 1⟩ d.buckets).isSome = true := by
      simp [addSeqToPrefixTree]
    cases hadd2 : addSeqToPrefixTree d.paramStr d.maxChildren d.maxNodeDepth
        (d.idToCluster.put (d.clusterCounter + 1) ⟨[], d.clusterCounter + 1, 1⟩)
        ⟨[], d.clusterCounter + 1, 1⟩ d.buckets with
    | none =>
      rw [hadd2] at hadd
      cases hadd
    | some bk =>
      simp only [train, htok, hts, hadd2]
      rfl
  | some b0 =>
    obtain ⟨hne, hlive⟩ := hinv.bucket0 b0 hb0
    cases hids : b0.clusterIds with
    | nil => exact absurd hids hne
    | cons i rest =>
      have hl : (d.idToCluster.lookup i).isSome = true :=
        hlive hcap i (by rw [hids]; rfl)
      obtain ⟨v, hv⟩ := Option.isSome_iff_exists.mp hl
      have hv' : lookupA d.idToCluster.entries i = some v := hv
      have h1 : (d.idToCluster.get i).1 = some v := by
        unfold Lru.get
        rw [hv']
      have hb0' : lookupA d.buckets ([] : List String).length = some b0 := hb0
      have hts : treeSearch d [] d.simTh false =
          some ((d.idToCluster.get i).2, some v) := by
        simp only [treeSearch, List.length_nil, eq_self_iff_true, if_true, hb0, hids]
        rw [h1]
      simp only [train, htok, hts]
      rfl

/-- C10: from any fresh engine with an unbounded store, in every reachable
state the zero-token count bucket (when present) has a non-empty cluster-id
list whose first id is still in the store — so the `cluster_ids[0]` access in
`tree_search` is always in bounds — and training a zero-token line never
fails. -/
theorem c10_zero_bucket_safety (maxD : Nat) (th : ℚ) (mc : Nat) (param : String)
    (msgs : List String) (d : Drain)
    (h : trainAll (Drain.init none maxD th mc param) msgs = some d) :
    (∀ b0, lookupA d.buckets 0 = some b0 →
      b0.clusterIds ≠ [] ∧
        ∀ i, b0.clusterIds.head? = some i →
          (d.idToCluster.lookup i).isSome = true) ∧
    (train d "").isSome = true := by
  have hinv := trainAll_inv (drainInv_init none maxD th mc param) msgs d h
  have hcfg := trainAll_config msgs d h
  have hcap : d.idToCluster.cap = none := hcfg.2.2.2.2
  constructor
  · intro b0 hb0
    obtain ⟨hne, hlive⟩ := hinv.bucket0 b0 hb0
    exact ⟨hne, hlive hcap⟩
  · exact train_zero_tokens_isSome hinv hcap

/-- Witness for C10: after training one empty line on a fresh unbounded
engine, training another empty line still succeeds. -/
theorem c10_zero_bucket_safety_witness :
    (train ((trainAll (Drain.init none 2 ((2 : ℚ) / 5) 100 "<*>") [""]).getD
      Drain.default) "").isSome = true :=
  (c10_zero_bucket_safety 2 ((2 : ℚ) / 5) 100 "<*>" [""]
    ((trainAll (Drain.init none 2 ((2 : ℚ) / 5) 100 "<*>") [""]).getD
      Drain.default) rfl).2

/-- C8: in any reachable state, one further `train` call never changes the
template length of any cluster that survives it, and the returned cluster's
template length equals the token count of the trained line (at creation the
template is the tokens verbatim; on a match the merge of the stored template
with the same-count line keeps the length, since every candidate reached
through the count bucket has that bucket's length). -/
theorem c8_template_length (cap : Option Nat) (maxD : Nat) (th : ℚ) (mc : Nat)
    (param : String) (msgs : List String) (d : Drain)
    (h : trainAll (Drain.init cap maxD th mc param) msgs = some d)
    (m : String) (c : LogCluster) (d' : Drain)
    (hstep : train d m = some (c, d')) :
    (∀ id v v', d.idToCluster.lookup id = some v →
      d'.idToCluster.lookup id = some v' →
      v'.logTemplateTokens.length = v.logTemplateTokens.length) ∧
    c.logTemplateTokens.length = (tokenize m).length := by
  have hinv := trainAll_inv (drainInv_init cap maxD th mc param) msgs d h
  cases hts : treeSearch d (tokenize m) d.simTh false with
  | none =>
    simp only [train, hts] at hstep
    cases hstep
  | some pr =>
    obtain ⟨store1, res⟩ := pr
    have hsim := treeSearch_lruSim hts
    cases res with
    | some mcl =>
      simp only [train, hts, Option.some.injEq, Prod.mk.injEq] at hstep
      obtain ⟨hc, rfl⟩ := hstep
      obtain ⟨id0, hid0, b, hb, hmem⟩ := treeSearch_some_spec hts
      have hkey : mcl.clusterId = id0 := (hinv.storeIds _ (lookupA_mem hid0)).1
      have hlen : mcl.logTemplateTokens.length = (tokenize m).length :=
        (hinv.bucketIds _ (lookupA_mem hb) id0 hmem).2 mcl hid0
      have hpres : (lookupA store1.entries mcl.clusterId).isSome = true := by
        have h1 := hsim.2.1 mcl.clusterId
        unfold Lru.lookup at h1
        rw [h1, hkey]
        unfold Lru.lookup at hid0
        rw [hid0]
        rfl
      constructor
      · intro id v v' hv hv'
        by_cases hik : id = mcl.clusterId
        · subst hik
          have hveq : v = mcl := by
            rw [hkey] at hv
            rw [hv] at hid0
            exact Option.some_inj.mp hid0
          rw [lookup_put_self] at hv'
          obtain rfl := Option.some_inj.mp hv'.symm
          show (createTemplate d.paramStr (tokenize m) mcl.logTemplateTokens).length =
            v.logTemplateTokens.length
          rw [createTemplate_length, hveq, hlen]
          omega
        · rw [lookup_put_ne_of_present id hik hpres, hsim.2.1 id] at hv'
          rw [hv] at hv'
          rw [Option.some_inj.mp hv'.symm]
      · rw [← hc]
        show (createTemplate d.paramStr (tokenize m) mcl.logTemplateTokens).length =
          (tokenize m).length
        rw [createTemplate_length, hlen]
        omega
    | none =>
      cases hadd : addSeqToPrefixTree d.paramStr d.maxChildren d.maxNodeDepth
          (store1.put (d.clusterCounter + 1)
            ⟨tokenize m, d.clusterCounter + 1, 1⟩)
          ⟨tokenize m, d.clusterCounter + 1, 1⟩ d.buckets with
      | none =>
        simp only [train, hts, hadd] at hstep
        cases hstep
      | some buckets' =>
        simp only [train, hts, hadd, Option.some.injEq, Prod.mk.injEq] at hstep
        obtain ⟨hc, rfl⟩ := hstep
        constructor
        · intro id v v' hv hv'
          have hne : id ≠ d.clusterCounter + 1 := by
            have := (hinv.storeIds _ (lookupA_mem hv)).2
            omega
          have h1 := lookup_put_ne_of_some hne hv'
          rw [hsim.2.1 id, hv] at h1
          rw [Option.some_inj.mp h1.symm]
        · rw [← hc]

/-- Witness for C8: training one line on a fresh engine and then a line of a
different token count returns a cluster of matching template length. -/
theorem c8_template_length_witness :
    (((train ((trainAll Drain.default ["a b"]).getD Drain.default) "c").getD
        (⟨[], 0, 0⟩, Drain.default)).1.logTemplateTokens.length =
      (tokenize "c").length) :=
  (c8_template_length none 2 ((2 : ℚ) / 5) 100 "<*>" ["a b"]
    ((trainAll Drain.default ["a b"]).getD Drain.default) rfl "c"
    ((train ((trainAll Drain.default ["a b"]).getD Drain.default) "c").getD
      (⟨[], 0, 0⟩, Drain.default)).1
    ((train ((trainAll Drain.default ["a b"]).getD Drain.default) "c").getD
      (⟨[], 0, 0⟩, Drain.default)).2
    rfl).2

/-- Pointwise reading of `create_template`: position `i` of the merge is the
common token when the two sides agree there and the wildcard otherwise. -/
theorem createTemplate_getElem (param : String) (seq1 seq2 : List String) (i : Nat)
    (t1 t2 : String) (h1 : seq1[i]? = some t1) (h2 : seq2[i]? = some t2) :
    (createTemplate param seq1 seq2)[i]? = some (if t1 = t2 then t1 else param) := by
  have hz : (seq1.zip seq2)[i]? = some (t1, t2) :=
    List.getElem?_zip_eq_some.mpr ⟨h1, h2⟩
  unfold createTemplate
  rw [List.getElem?_map, hz]
  rfl

/-- C3: the two outcomes of one `train` call.  On a match, the returned
cluster keeps the candidate's id, its template is the position-wise merge of
the incoming tokens with the stored template (literal where they agree,
wildcard otherwise), its size is the candidate's plus one, and it is written
back to the store, tree and counter untouched.  On a miss, the returned
cluster is the tokens verbatim with size 1 and id `counter + 1`, and it is
inserted into both the store and the prefix tree. -/
theorem c3_train_step (d : Drain) (m : String) (c : LogCluster) (d' : Drain)
    (h : train d m = some (c, d')) :
    (∀ store1 mcl, treeSearch d (tokenize m) d.simTh false = some (store1, some mcl) →
      c.clusterId = mcl.clusterId ∧ c.size = mcl.size + 1 ∧
      c.logTemplateTokens = createTemplate d.paramStr (tokenize m) mcl.logTemplateTokens ∧
      (∀ (i : Nat) (t1 t2 : String), (tokenize m)[i]? = some t1 →
        mcl.logTemplateTokens[i]? = some t2 →
        c.logTemplateTokens[i]? = some (if t1 = t2 then t1 else d.paramStr)) ∧
      d'.idToCluster = store1.put c.clusterId c ∧
      d'.idToCluster.lookup c.clusterId = some c ∧
      d'.buckets = d.buckets ∧ d'.clusterCounter = d.clusterCounter) ∧
    (∀ store1, treeSearch d (tokenize m) d.simTh false = some (store1, none) →
      c.logTemplateTokens = tokenize m ∧ c.size = 1 ∧
      c.clusterId = d.clusterCounter + 1 ∧
      d'.clusterCounter = d.clusterCounter + 1 ∧
      d'.idToCluster = store1.put c.clusterId c ∧
      d'.idToCluster.lookup c.clusterId = some c ∧
      addSeqToPrefixTree d.paramStr d.maxChildren d.maxNodeDepth d'.idToCluster c
        d.buckets = some d'.buckets ∧
      ∃ p ∈ d'.buckets, c.clusterId ∈ p.2.allIds) := by
  cases hts : treeSearch d (tokenize m) d.simTh false with
  | none =>
    simp only [train, hts] at h
    cases h
  | some pr =>
    obtain ⟨store0, res⟩ := pr
    cases res with
    | some mc0 =>
      simp only [train, hts, Option.some.injEq, Prod.mk.injEq] at h
      obtain ⟨hc, rfl⟩ := h
      constructor
      · intro store1 mcl hts'
        obtain ⟨rfl, hmc⟩ : store0 = store1 ∧ some mc0 = some mcl :=
          Prod.mk.injEq .. ▸ Option.some_inj.mp hts'
        obtain rfl : mc0 = mcl := Option.some_inj.mp hmc
        refine ⟨by rw [← hc], by rw [← hc], by rw [← hc], ?_, ?_, ?_, rfl, rfl⟩
        · intro i t1 t2 h1 h2
          rw [← hc]
          exact createTemplate_getElem d.paramStr (tokenize m) mc0.logTemplateTokens
            i t1 t2 h1 h2
        · rw [← hc]
        · rw [← hc]
          show (store0.put mc0.clusterId _).lookup mc0.clusterId = _
          rw [lookup_put_self]
      · intro store1 hts'
        obtain ⟨_, hmc⟩ : store0 = store1 ∧ some mc0 = none :=
          Prod.mk.injEq .. ▸ Option.some_inj.mp hts'
        cases hmc
    | none =>
      cases hadd : addSeqToPrefixTree d.paramStr d.maxChildren d.maxNodeDepth
          (store0.put (d.clusterCounter + 1)
            ⟨tokenize m, d.clusterCounter + 1, 1⟩)
          ⟨tokenize m, d.clusterCounter + 1, 1⟩ d.buckets with
      | none =>
        simp only [train, hts, hadd] at h
        cases h
      | some buckets' =>
        simp only [train, hts, hadd, Option.some.injEq, Prod.mk.injEq] at h
        obtain ⟨hc, rfl⟩ := h
        constructor
        · intro store1 mcl hts'
          obtain ⟨_, hmc⟩ : store0 = store1 ∧ (none : Option LogCluster) = some mcl :=
            Prod.mk.injEq .. ▸ Option.some_inj.mp hts'
          cases hmc
        · intro store1 hts'
          obtain ⟨rfl, _⟩ : store0 = store1 ∧ (none : Option LogCluster) = none :=
            Prod.mk.injEq .. ▸ Option.some_inj.mp hts'
          refine ⟨by rw [← hc], by rw [← hc], by rw [← hc], rfl, by rw [← hc], ?_, ?_, ?_⟩
          · rw [← hc]
            show (store0.put (d.clusterCounter + 1) _).lookup (d.clusterCounter + 1) =
              some _
            rw [lookup_put_self]
          · rw [← hc]
            exact hadd
          · rw [← hc]
            unfold addSeqToPrefixTree at hadd
            by_cases htc : (tokenize m).length = 0
            · simp only [htc, eq_self_iff_true, if_true, Option.some.injEq] at hadd
              refine ⟨(0, Node.mk
                (((lookupA d.buckets 0).getD Node.empty).keyToChildNode)
                ((((lookupA d.buckets 0).getD Node.empty).clusterIds) ++
                  [d.clusterCounter + 1])), ?_, ?_⟩
              · rw [← hadd]
                exact self_mem_insertA _ _ _
              · show d.clusterCounter + 1 ∈ Node.allIds _
                rw [Node.allIds]
                exact List.mem_append_left _
                  (List.mem_append_right _ (List.mem_singleton.mpr rfl))
            · simp only [htc, if_false] at hadd
              cases haux : addSeqAux d.paramStr d.maxChildren d.maxNodeDepth
                  (store0.put (d.clusterCounter + 1)
                    ⟨tokenize m, d.clusterCounter + 1, 1⟩)
                  (d.clusterCounter + 1) (tokenize m).length (tokenize m) 1
                  ((lookupA d.buckets (tokenize m).length).getD Node.empty) with
              | none =>
                rw [haux] at hadd
                cases hadd
              | some b' =>
                rw [haux] at hadd
                simp only [Option.some.injEq] at hadd
                refine ⟨((tokenize m).length, b'), ?_, ?_⟩
                · rw [← hadd]
                  exact self_mem_insertA _ _ _
                · exact addSeqAux_cid_mem d.paramStr d.maxChildren d.maxNodeDepth
                    _ (d.clusterCounter + 1) (tokenize m).length (tokenize m) 1 _ b'
                    (by omega) (by omega) haux

/-- Witness for C3: training a fresh default engine on one line creates the
verbatim cluster of size 1 with id 1. -/
theorem c3_train_step_witness :
    ((train Drain.default "a b").getD (⟨[], 0, 0⟩, Drain.default)).1.logTemplateTokens =
        tokenize "a b" ∧
      ((train Drain.default "a b").getD (⟨[], 0, 0⟩, Drain.default)).1.size = 1 ∧
      ((train Drain.default "a b").getD (⟨[], 0, 0⟩, Drain.default)).1.clusterId = 1 := by
  have h := (c3_train_step Drain.default "a b"
    ((train Drain.default "a b").getD (⟨[], 0, 0⟩, Drain.default)).1
    ((train Drain.default "a b").getD (⟨[], 0, 0⟩, Drain.default)).2 rfl).2
    Drain.default.idToCluster rfl
  exact ⟨h.1, h.2.1, h.2.2.1⟩

/-- C6: eviction consistency.  (1) A `put` of a fresh key into a bounded
store holding exactly its capacity keeps the entry count and evicts exactly
the least-recently-used entry — the last one of the recency list.  (2) The
fast-match scan silently skips a candidate id that is no longer in the
store, leaving everything unchanged.  (3) A zero-token search whose
degenerate bucket heads an evicted id returns "no match" instead of failing.
(4) A `train` call on an invariant-satisfying state whose bounded store is
exactly at capacity leaves the store exactly at capacity. -/
theorem c6_eviction_consistency :
    (∀ (s : Lru) (k : Nat) (v : LogCluster) (cp : Nat),
      s.cap = some cp → s.entries.length = cp → 1 ≤ cp → s.lookup k = none →
      (s.put k v).entries = (k, v) :: s.entries.dropLast ∧
        (s.put k v).entries.length = cp) ∧
    (∀ (param : String) (tokens : List String) (inc : Bool) (id : Nat)
      (ids : List Nat) (store : Lru) (ms : ℚ) (mp : ℤ) (best : Option LogCluster),
      store.lookup id = none →
      fastMatchLoop param tokens inc (id :: ids) store ms mp best =
        fastMatchLoop param tokens inc ids store ms mp best) ∧
    (∀ (d : Drain) (b0 : Node) (i : Nat) (rest : List Nat),
      lookupA d.buckets 0 = some b0 → b0.clusterIds = i :: rest →
      d.idToCluster.lookup i = none →
      treeSearch d [] d.simTh false = some (d.idToCluster, none)) ∧
    (∀ (d : Drain) (m : String) (c : LogCluster) (d' : Drain) (cp : Nat),
      DrainInv d →
      d.idToCluster.cap = some cp → d.idToCluster.entries.length = cp → 1 ≤ cp →
      train d m = some (c, d') → d'.idToCluster.entries.length = cp) := by
  refine ⟨?_, ?_, ?_, ?_⟩
  · intro s k v cp hcap hlen hcp hmiss
    have hnone : (lookupA s.entries k).isSome = false := by
      unfold Lru.lookup at hmiss
      rw [hmiss]
      rfl
    constructor
    · simp only [Lru.put, hnone, Bool.false_eq_true, if_false, hcap]
      rw [if_pos (le_of_eq hlen.symm)]
    · simp only [Lru.put, hnone, Bool.false_eq_true, if_false, hcap]
      rw [if_pos (le_of_eq hlen.symm)]
      rw [List.length_cons, List.length_dropLast, hlen]
      omega
  · intro param tokens inc id ids store ms mp best hmiss
    have hnone : lookupA store.entries id = none := hmiss
    rw [fastMatchLoop]
    have hget : store.get id = (none, store) := by
      unfold Lru.get
      rw [hnone]
    rw [hget]
  · intro d b0 i rest hb0 hids hdead
    have hdead' : lookupA d.idToCluster.entries i = none := hdead
    have hb0' : lookupA d.buckets ([] : List String).length = some b0 := hb0
    simp only [treeSearch, List.length_nil, eq_self_iff_true, if_true, hb0, hids]
    unfold Lru.get
    rw [hdead']
  · intro d m c d' cp hinv hcap hlen hcp hstep
    cases hts : treeSearch d (tokenize m) d.simTh false with
    | none =>
      simp only [train, hts] at hstep
      cases hstep
    | some pr =>
      obtain ⟨store1, res⟩ := pr
      have hsim := treeSearch_lruSim hts
      have hlen1 : store1.entries.length = cp := hsim.2.2.2.1.trans hlen
      cases res with
      | some mcl =>
        simp only [train, hts, Option.some.injEq, Prod.mk.injEq] at hstep
        obtain ⟨_, rfl⟩ := hstep
        obtain ⟨id0, hid0, _, _, _⟩ := treeSearch_some_spec hts
        have hkey : mcl.clusterId = id0 := (hinv.storeIds _ (lookupA_mem hid0)).1
        have hlk1 : lookupA store1.entries mcl.clusterId = some mcl := by
          have h1 := hsim.2.1 mcl.clusterId
          unfold Lru.lookup at h1
          rw [h1, hkey]
          exact hid0
        show ((store1.put mcl.clusterId _).entries).length = cp
        unfold Lru.put
        rw [if_pos (by rw [hlk1]; rfl), List.length_cons]
        have := removeA_length hlk1
        omega
      | none =>
        cases hadd : addSeqToPrefixTree d.paramStr d.maxChildren d.maxNodeDepth
            (store1.put (d.clusterCounter + 1)
              ⟨tokenize m, d.clusterCounter + 1, 1⟩)
            ⟨tokenize m, d.clusterCounter + 1, 1⟩ d.buckets with
        | none =>
          simp only [train, hts, hadd] at hstep
          cases hstep
        | some buckets' =>
          simp only [train, hts, hadd, Option.some.injEq, Prod.mk.injEq] at hstep
          obtain ⟨_, rfl⟩ := hstep
          have hfresh : (lookupA store1.entries (d.clusterCounter + 1)).isSome = false := by
            cases hl : lookupA store1.entries (d.clusterCounter + 1) with
            | none => rfl
            | some v =>
              have hm : (d.clusterCounter + 1, v) ∈ d.idToCluster.entries :=
                hsim.2.2.1 _ (lookupA_mem hl)
              have := (hinv.storeIds _ hm).2
              omega
          show ((store1.put (d.clusterCounter + 1) _).entries).length = cp
          simp only [Lru.put, hfresh, Bool.false_eq_true, if_false, hsim.1.trans hcap]
          rw [if_pos (le_of_eq hlen1.symm), List.length_cons, List.length_dropLast, hlen1]
          omega

/-- The at-capacity one-cluster bounded store used by the C6 witness. -/
def c6FullStore : Lru := ⟨[(1, ⟨["x"], 1, 1⟩)], some 1⟩

/-- An engine whose zero-token bucket heads an evicted id (7 is not in the
store), used by the C6 witness. -/
def c6DeadDrain : Drain := ⟨⟨[], none⟩, 4, 2, 0, 100, 1, [(0, Node.mk [] [7])], "<*>"⟩

/-- An engine at store capacity, used by the C6 witness. -/
def c6FullDrain : Drain := ⟨c6FullStore, 4, 2, 0, 100, 1, [], "<*>"⟩

/-- Witness for C6: the four parts at concrete inputs — a fresh put into the
full one-slot store evicts exactly its single (least recently used) entry;
the fast-match scan steps over a dead id without any effect; the zero-token
search over a dead head id reports no match; a train call on the at-capacity
engine leaves it at capacity. -/
theorem c6_eviction_consistency_witness :
    ((c6FullStore.put 2 ⟨["y"], 2, 1⟩).entries =
      [(2, ⟨["y"], 2, 1⟩)] ∧ (c6FullStore.put 2 ⟨["y"], 2, 1⟩).entries.length = 1) ∧
    fastMatchLoop "<*>" ["a"] false [9] c6FullStore 0 0 none =
      fastMatchLoop "<*>" ["a"] false [] c6FullStore 0 0 none ∧
    treeSearch c6DeadDrain [] c6DeadDrain.simTh false =
      some (c6DeadDrain.idToCluster, none) ∧
    ((train c6FullDrain "a b").getD
      (⟨[], 0, 0⟩, Drain.default)).2.idToCluster.entries.length = 1 := by
  have hinv : DrainInv c6FullDrain := by
    refine ⟨?_, ?_, ?_, ?_, ?_⟩
    · intro p hp
      have hp' : p ∈ [((1 : Nat), (⟨["x"], 1, 1⟩ : LogCluster))] := hp
      rw [List.mem_singleton] at hp'
      subst hp'
      exact ⟨rfl, le_refl 1⟩
    · intro p hp
      cases hp
    · intro _ p hp
      cases hp
    · intro p hp
      cases hp
    · intro b0 h
      cases h
  refine ⟨c6_eviction_consistency.1 c6FullStore 2 ⟨["y"], 2, 1⟩ 1 rfl rfl (by omega) rfl,
    c6_eviction_consistency.2.1 "<*>" ["a"] false 9 [] c6FullStore 0 0 none rfl,
    c6_eviction_consistency.2.2.1 c6DeadDrain (Node.mk [] [7]) 7 [] rfl rfl rfl,
    c6_eviction_consistency.2.2.2 c6FullDrain "a b"
      ((train c6FullDrain "a b").getD (⟨[], 0, 0⟩, Drain.default)).1
      ((train c6FullDrain "a b").getD (⟨[], 0, 0⟩, Drain.default)).2
      1 hinv rfl rfl (by omega) rfl⟩

end Logu
